import Mathlib

/-!
Shallow embedding of the Strawberry-Fields cover optimizer
(main.cc, global.cc, rectangle.h/cc, shade.h/cc, optimizer.h/cpp).

The grid is the global field matrix; a rectangle is the record built by
`Rectangle::Rectangle`; its lazily materialized bitset span is modelled as a
`Finset ℕ` of bit positions `row * num_columns + col` (the span of a
rectangle is a pure function of its bounds and the grid dimensions, exactly
as `Rectangle::make_span` computes it).  Machine integers are modelled by
`Nat`/`Int`: all quantities reachable in the program (areas up to 2500,
costs, penalties) are far below any overflow boundary.

The candidate vector produced by `generate_rectangles` is sorted by the
floating-point weight-to-cost ratio before `greedy_match` consumes it from
the back; the sort is modelled by quantifying over arbitrary permutations of
the generated list, with the head of the Lean list playing the role of the
back of the C++ vector.
-/

namespace StrawberryFields

/-- The global grid state (`Global::field`, `Global::num_rows`,
`Global::num_columns`).  `field i j` is the 0/1 cell entry. -/
structure Grid where
  num_rows : Nat
  num_columns : Nat
  field : Nat → Nat → Nat

/-- `Global::weight_of_rectangle`: sum of the cell entries over the inclusive
rectangle.  The C++ double loop from `top_left` to `bottom_right` inclusive is
the sum over `Icc`; when the bounds are unordered the loop body never runs and
the sum is 0, matching the empty `Icc`. -/
def weight_of_rectangle (g : Grid) (x0 y0 x1 y1 : Nat) : Nat :=
  ∑ i ∈ Finset.Icc x0 x1, ∑ j ∈ Finset.Icc y0 y1, g.field i j

/-- The strawberry coordinate set (`Global::strawberries`): the `(row, col)`
pairs whose field entry is a strawberry. -/
def strawberries (g : Grid) : Finset (Nat × Nat) :=
  (Finset.range g.num_rows ×ˢ Finset.range g.num_columns).filter
    (fun q => g.field q.1 q.2 ≠ 0)

/-- The bit positions of the strawberries, as set into the `unmatched`
bitset by `Optimizer::greedy_match`. -/
def berryBits (g : Grid) : Finset Nat :=
  (strawberries g).image (fun q => g.num_columns * q.1 + q.2)

/-- A `Rectangle`: inclusive bounds plus the cached weight.  (`area`, `cost`
and the span are pure functions of these fields; the label plays no role in
any claim.) -/
structure Rect where
  top_left_row : Nat
  top_left_column : Nat
  bottom_right_row : Nat
  bottom_right_column : Nat
  weight : Nat
deriving DecidableEq, Repr

namespace Rect

/-- `Rectangle::area`, cached at construction:
`(bottom-top+1) * (right-left+1)`. -/
def area (r : Rect) : Nat :=
  (r.bottom_right_row - r.top_left_row + 1) *
    (r.bottom_right_column - r.top_left_column + 1)

/-- The area as the C++ `int` expression computes it (before the cast to
`size_t`), needed to state that the constructor assertion `area_ > 0`
holds with room to spare. -/
def areaZ (r : Rect) : Int :=
  ((r.bottom_right_row : Int) - r.top_left_row + 1) *
    ((r.bottom_right_column : Int) - r.top_left_column + 1)

/-- `Rectangle::cost`: `10 + area`. -/
def cost (r : Rect) : Nat := 10 + r.area

/-- Bounds are ordered: `top_row ≤ bottom_row` and `top_col ≤ bottom_col`. -/
def Ordered (r : Rect) : Prop :=
  r.top_left_row ≤ r.bottom_right_row ∧ r.top_left_column ≤ r.bottom_right_column

instance (r : Rect) : Decidable r.Ordered := by unfold Ordered; infer_instance

/-- The rectangle lies inside the grid and its bounds are ordered. -/
def InGrid (g : Grid) (r : Rect) : Prop :=
  r.Ordered ∧ r.bottom_right_row < g.num_rows ∧ r.bottom_right_column < g.num_columns

instance (g : Grid) (r : Rect) : Decidable (r.InGrid g) := by
  unfold InGrid; infer_instance

end Rect

/-- The set of bit positions `N * i + j` over the inclusive box
`[t, b] × [l, r]`; this is what `Rectangle::make_span` turns on. -/
def boxBits (N t l b r : Nat) : Finset Nat :=
  (Finset.Icc t b ×ˢ Finset.Icc l r).image (fun q => N * q.1 + q.2)

/-- `Rectangle::make_span` / `Rectangle::span`: the bitset of cells inside
the rectangle, by bit position `row * num_columns + col`.  `make_span` is
idempotent and the span is a pure function of the bounds, so it is modelled
as a derived function. -/
def Rect.span (g : Grid) (r : Rect) : Finset Nat :=
  boxBits g.num_columns r.top_left_row r.top_left_column
    r.bottom_right_row r.bottom_right_column

/-- The grid-weight `Rectangle` constructor (`Rectangle(x0, y0, x1, y1)`),
which takes its weight from the field. -/
def mkRect (g : Grid) (x0 y0 x1 y1 : Nat) : Rect :=
  ⟨x0, y0, x1, y1, weight_of_rectangle g x0 y0 x1 y1⟩

/-- The 1×1 candidate rectangle at a single cell, exactly as the generator
emits it. -/
def unitRect (g : Grid) (i j : Nat) : Rect := mkRect g i j i j

/-! ### Phase 1: rectangle generation (`Optimizer::generate_rectangles`) -/

/-- The inner `down` loop of `Optimizer::generate_rectangles` for a fixed
`(row, col, right)` chain: walk the given list of `down` values carrying the
weight of the previous emission, and emit a rectangle iff its weight strictly
exceeds it.  Emitted rectangles use the weight-injecting constructor. -/
def chainGo (g : Grid) (row col right : Nat) : List Nat → Nat → List Rect
  | [], _ => []
  | down :: rest, weight =>
    let w := weight_of_rectangle g row col down right
    if weight < w then
      ⟨row, col, down, right, w⟩ :: chainGo g row col right rest w
    else
      chainGo g row col right rest weight

/-- `Optimizer::generate_rectangles`: all chains over
`row ∈ [0, M)`, `col ∈ [0, N)`, `right ∈ [col, N)`, `down ∈ [row, M)`. -/
def generate_rectangles (g : Grid) : List Rect :=
  (List.range g.num_rows).flatMap fun row =>
    (List.range g.num_columns).flatMap fun col =>
      (List.range' col (g.num_columns - col)).flatMap fun right =>
        chainGo g row col right (List.range' row (g.num_rows - row)) 0

/-! ### Phase 2: greedy matching (`Optimizer::greedy_match`,
`Optimizer::find_next_rectangle`) -/

/-- The optimizer state during the greedy phase: the candidate vector
(`rectangles_`, with the back of the vector at the head of the list), the
covering mask (`covering_`), the cover (`result_`) and the `unmatched`
strawberry bitset of the loop in `greedy_match`. -/
structure GreedyState where
  rectangles : List Rect
  covering : Finset Nat
  result : List Rect
  unmatched : Finset Nat
deriving DecidableEq

/-- The do-while loop of `Optimizer::find_next_rectangle`: pop candidates
from the back while the popped candidate meets the covering mask and
candidates remain.  Returns the accepted rectangle and the remaining
candidate list; `none` models calling `back()` on an empty vector.
Note the loop exits, accepting the last popped rectangle, either when its
meet with the covering mask is empty or when the vector runs out. -/
def findNextLoop (g : Grid) (covering : Finset Nat) : List Rect → Option (Rect × List Rect)
  | [] => none
  | r :: rest =>
    if covering ∩ r.span g = ∅ then some (r, rest)
    else
      match rest with
      | [] => some (r, [])
      | _ :: _ => findNextLoop g covering rest

/-- `Optimizer::find_next_rectangle`: when the covering mask is empty the
back of the vector is returned without popping anything; otherwise the
do-while pop loop runs. -/
def find_next_rectangle (g : Grid) (covering : Finset Nat) (cands : List Rect) :
    Option (Rect × List Rect) :=
  match cands with
  | [] => none
  | r :: _ =>
    if covering = ∅ then some (r, cands)
    else findNextLoop g covering cands

/-- The `while (unmatched_strawberries.any())` loop of
`Optimizer::greedy_match`, with explicit fuel (the loop makes progress on
every iteration reachable from a well-formed start, see the lemmas below,
so `(berryBits g).card` fuel always suffices). -/
def greedyGo (g : Grid) : Nat → GreedyState → GreedyState
  | 0, st => st
  | fuel + 1, st =>
    if st.unmatched = ∅ then st
    else
      match find_next_rectangle g st.covering st.rectangles with
      | none => st
      | some (r, rest) =>
        let covering := st.covering ∪ r.span g
        greedyGo g fuel
          { rectangles := rest, covering := covering,
            result := st.result ++ [r], unmatched := st.unmatched \ covering }

/-- The state entering the greedy loop: empty covering mask, empty cover,
`unmatched` holding every strawberry bit. -/
def initGreedyState (g : Grid) (cands : List Rect) : GreedyState :=
  { rectangles := cands, covering := ∅, result := [], unmatched := berryBits g }

/-- `Optimizer::greedy_match`, run on a candidate list `cands` (a
permutation of `generate_rectangles`, reflecting the ratio sort). -/
def greedy_match (g : Grid) (cands : List Rect) : GreedyState :=
  greedyGo g (berryBits g).card (initGreedyState g cands)

/-! ### The slice classifier (`determine_intersection_type`) -/

/-- `IntersectionType`, with the `NonIncreasing` constructor carrying the
residual bounds the classifier emits into the `Slice` (the C++ stores them
in `Slice` fields initialized to `-1`; they are written exactly when the
result is `kNonIncreasing`). -/
inductive SliceKind where
  | void
  | decreasing
  | nonIncreasing (tlr tlc brr brc : Nat)
  | increasing
deriving DecidableEq, Repr

/-- The first set bit of a bitset, `find_first()`: the scan by
`find_first`/`find_next` visits positions in increasing order, so this is
the minimum (0 is a dummy for the empty set, never consulted). -/
def firstBit (s : Finset Nat) : Nat := s.min.untop' 0

/-- The last bit visited by the `find_first`/`find_next` scan: the maximum
of the set (0 is a dummy for the empty set, never consulted). -/
def lastBit (s : Finset Nat) : Nat := s.max.unbot' 0

/-- The scan-and-test block of `determine_intersection_type`, applied to the
nonempty `left_over = r3.span - join.span`: derive candidate top-left bounds
from the first set bit and bottom-right bounds from the last visited bit,
collect the touched `rows` (`(pos - pos % N) / N`) and `columns`
(`pos % N`), build the bounds-checked `test` box, and emit `NonIncreasing`
with the bounds exactly when the bounds are valid and the box reproduces
`left_over`. -/
def classify_leftover (g : Grid) (left_over : Finset Nat) : SliceKind :=
  let N := g.num_columns
  let pos := firstBit left_over
  let top_left_column := pos % N
  let top_left_row := (pos - top_left_column) / N
  let rows := left_over.image (fun p => (p - p % N) / N)
  let columns := left_over.image (fun p => p % N)
  let last_pos := lastBit left_over
  let bottom_right_column := last_pos % N
  let bottom_right_row := (last_pos - bottom_right_column) / N
  let test := (boxBits N top_left_row top_left_column
      bottom_right_row bottom_right_column).filter
    (fun p => p < g.num_rows * g.num_columns)
  let is_valid_bounds := top_left_row = firstBit rows ∧
    top_left_column = firstBit columns ∧
    bottom_right_row = lastBit rows ∧
    bottom_right_column = lastBit columns
  if is_valid_bounds ∧ test = left_over then
    SliceKind.nonIncreasing top_left_row top_left_column
      bottom_right_row bottom_right_column
  else SliceKind.increasing

/-- `determine_intersection_type`: classify the part of `r3` left over
outside the join. -/
def determine_intersection_type (g : Grid) (r3 join : Rect) : SliceKind :=
  if r3.span g ∩ join.span g = ∅ then SliceKind.void
  else if r3.span g ⊆ join.span g then SliceKind.decreasing
  else classify_leftover g (r3.span g \ join.span g)

/-- Spec-level notion the classifier's rectangularity test refines: a
nonempty bit set is a full rectangle iff it equals the box spanned by the
minima and maxima of its touched rows and columns (no holes, straight
edges). -/
def IsFullBox (N : Nat) (s : Finset Nat) : Prop :=
  s = boxBits N ((s.image (fun p => p / N)).min.untop' 0)
    ((s.image (fun p => p % N)).min.untop' 0)
    ((s.image (fun p => p / N)).max.unbot' 0)
    ((s.image (fun p => p % N)).max.unbot' 0)

/-! ### Shades (`shade.h`, `shade.cc`) -/

/-- A `Shade`: the pair, their join, the envelope (cover rectangles fully
inside the join) and the penumbra (original ↦ residual).  The penumbra's
`boost::unordered_map` is modelled as an association list; every use
(penalty sum, replacement, size) is independent of its iteration order. -/
structure Shade where
  rec1 : Rect
  rec2 : Rect
  join : Rect
  envelope : List Rect
  penumbra : List (Rect × Rect)
deriving DecidableEq, Repr

/-- `Shade::penalty`: the cost of the join minus the cost of everything the
application removes (the pair, the envelope, and the shaved penumbra area).
The C++ computes this in machine integers; all reachable magnitudes are far
below any wrap boundary, so exact `Int` arithmetic is the faithful model. -/
def Shade.penalty (s : Shade) : Int :=
  let envelope_cost : Int := s.envelope.foldl (fun acc r => acc + (r.cost : Int)) 0
  let penumbra_cost : Int :=
    s.penumbra.foldl (fun acc p => acc + ((p.1.area : Int) - (p.2.area : Int))) 0
  (s.join.cost : Int) -
    ((s.rec1.cost : Int) + (s.rec2.cost : Int) + envelope_cost + penumbra_cost)

/-- `Shade::operator<`: ascending penalty, ties broken by smaller envelope. -/
def shadeLT (a b : Shade) : Bool :=
  if a.penalty = b.penalty then a.envelope.length < b.envelope.length
  else a.penalty < b.penalty

/-! ### Phase 3: local search (`Optimizer::local_search`,
`Optimizer::join_rectangles`) -/

/-- `Optimizer::join_rectangles`: the bounding rectangle of the pair, with
weight taken from the grid. -/
def join_rectangles (g : Grid) (r1 r2 : Rect) : Rect :=
  mkRect g (min r1.top_left_row r2.top_left_row)
    (min r1.top_left_column r2.top_left_column)
    (max r1.bottom_right_row r2.bottom_right_row)
    (max r1.bottom_right_column r2.bottom_right_column)

/-- Build the `Shade` for a pair, as the pair loop of
`Optimizer::local_search` does: classify every other cover member against
the join, drop `Void` slices, discard the whole shade if any slice is
`Increasing` (the C++ sorts the slices and tests the last — i.e. maximal —
kind, which is the same test), otherwise route `Decreasing` slices into the
envelope and `NonIncreasing` slices into the penumbra with a freshly
constructed residual rectangle. -/
def build_shade (g : Grid) (cover : List Rect) (r1 r2 : Rect) : Option Shade :=
  let join := join_rectangles g r1 r2
  let difference_set := cover.filter (fun r => r ≠ r1 ∧ r ≠ r2)
  let slices := (difference_set.map
      (fun r3 => (r3, determine_intersection_type g r3 join))).filter
    (fun p => p.2 ≠ SliceKind.void)
  if slices.any (fun p => p.2 = SliceKind.increasing) then none
  else
    some
      { rec1 := r1, rec2 := r2, join := join,
        envelope := (slices.filter (fun p => p.2 = SliceKind.decreasing)).map Prod.fst,
        penumbra := slices.filterMap (fun p =>
          match p.2 with
          | SliceKind.nonIncreasing a b c d => some (p.1, mkRect g a b c d)
          | _ => none) }

/-- All unordered pairs of cover members, in the order the double iterator
loop of `Optimizer::local_search` visits them. -/
def allPairs {α : Type} : List α → List (α × α)
  | [] => []
  | x :: xs => xs.map (fun y => (x, y)) ++ allPairs xs

/-- The minimum shade under `Shade::operator<` (the C++ sorts the shade
vector and takes the front; any front of a sorted vector is a minimal
element, and ties are order-equivalent for every later use). -/
def chooseBest : Shade → List Shade → Shade
  | best, [] => best
  | best, s :: rest => chooseBest (if shadeLT s best then s else best) rest

/-- Apply the chosen shade to the cover, exactly in the source's order:
erase `rec1`, erase `rec2`, push back the join, erase every envelope
member, then replace every penumbra original by its residual in place. -/
def apply_shade (cover : List Rect) (s : Shade) : List Rect :=
  let l1 := ((cover.filter (fun r => r ≠ s.rec1)).filter (fun r => r ≠ s.rec2)) ++ [s.join]
  let l2 := s.envelope.foldl (fun acc e => acc.filter (fun r => r ≠ e)) l1
  s.penumbra.foldl (fun acc p => acc.map (fun r => if r = p.1 then p.2 else r)) l2

/-- One iteration of `Optimizer::local_search`: returns the next cover when
a shade is applied, `none` when the recursion stops (fewer than two cover
members, no retained shade, or the best shade fails the application test). -/
def local_search_step (g : Grid) (K : Nat) (cover : List Rect) : Option (List Rect) :=
  if cover.length < 2 then none
  else
    match (allPairs cover).filterMap (fun p => build_shade g cover p.1 p.2) with
    | [] => none
    | s :: rest =>
      let best := chooseBest s rest
      if best.penalty ≤ 0 ∨ K < cover.length then some (apply_shade cover best)
      else none

/-- The recursion of `Optimizer::local_search`, with explicit fuel; every
applied step strictly decreases the cover cardinality (proved below), so
fuel equal to the cover size always suffices. -/
def local_search_go (g : Grid) (K : Nat) : Nat → List Rect → List Rect
  | 0, cover => cover
  | fuel + 1, cover =>
    match local_search_step g K cover with
    | none => cover
    | some next => local_search_go g K fuel next

/-- `Optimizer::local_search` on a cover. -/
def local_search (g : Grid) (K : Nat) (cover : List Rect) : List Rect :=
  local_search_go g K cover.length cover

/-! ### The K ≤ 1 fast path and the driver -/

/-- `Optimizer::compute_convex_hull`: the bounding box of all strawberry
bits, scanned exactly as the source does (rows and columns collected from
the bit positions). -/
def compute_convex_hull (g : Grid) : List Rect :=
  let s := berryBits g
  let N := g.num_columns
  let rows := s.image (fun p => (p - p % N) / N)
  let columns := s.image (fun p => p % N)
  [mkRect g (rows.min.untop' 0) (columns.min.untop' 0)
    (rows.max.unbot' 0) (columns.max.unbot' 0)]

/-- The cover computed by `Optimizer::run` (labelling and output do not
change the cover): phases 1–3 when `max_rectangles_ > 1`, otherwise the
convex-hull shortcut.  `cands` stands for the sorted candidate vector. -/
def optimizer_run (g : Grid) (K : Nat) (cands : List Rect) : List Rect :=
  if 1 < K then local_search g K (greedy_match g cands).result
  else compute_convex_hull g

/-- The total cost `Optimizer::run` sums over the final cover. -/
def totalCost (cover : List Rect) : Nat := (cover.map Rect.cost).sum

/-- The union of the spans of a cover (the covering mask built by OR-ing
accepted spans). -/
def coverUnion (g : Grid) (cover : List Rect) : Finset Nat :=
  cover.foldr (fun r acc => r.span g ∪ acc) ∅

/-- The cover invariant: members lie in the grid and are pairwise disjoint
(`assert_disjoint`). -/
def CoverInv (g : Grid) (cover : List Rect) : Prop :=
  (∀ r ∈ cover, r.InGrid g) ∧
    cover.Pairwise (fun a b => a.span g ∩ b.span g = ∅)

/-- The greedy-loop invariant tying the four state components together:
the mask is the union of the accepted spans, `unmatched` is the strawberries
minus the mask, the cover is disjoint and in-grid, every remaining candidate
is an in-grid rectangle with its true (positive) weight, and every
still-uncovered strawberry still has its 1×1 candidate in the vector. -/
def GreedyInv (g : Grid) (st : GreedyState) : Prop :=
  st.covering = coverUnion g st.result ∧
  st.unmatched = berryBits g \ st.covering ∧
  CoverInv g st.result ∧
  (∀ c ∈ st.rectangles, c.InGrid g ∧ 0 < c.weight ∧
    c.weight = weight_of_rectangle g c.top_left_row c.top_left_column
      c.bottom_right_row c.bottom_right_column) ∧
  (∀ p ∈ berryBits g, p ∉ st.covering →
    unitRect g (p / g.num_columns) (p % g.num_columns) ∈ st.rectangles)

/-- Concrete 1×5 field `@...@` (scenario C of the spec), used by the
verification witnesses. -/
def sampleGrid : Grid := ⟨1, 5, fun i j => if i = 0 ∧ (j = 0 ∨ j = 4) then 1 else 0⟩

/-- Concrete 2×1 field with two stacked strawberries, used by the
verification witnesses. -/
def columnGrid : Grid := ⟨2, 1, fun _ j => if j = 0 then 1 else 0⟩

/-- Concrete full 2×2 field, used by the verification witnesses. -/
def squareGrid : Grid := ⟨2, 2, fun _ _ => 1⟩

/-- Simultaneous substitution by an association list: the value of the
first pair whose key matches, else the argument itself.  The penumbra
replacement fold of `local_search` coincides with mapping this function
whenever no residual is itself a key (always the case for shades built
from a disjoint cover). -/
def substList (pen : List (Rect × Rect)) (x : Rect) : Rect :=
  match pen.find? (fun p => p.1 = x) with
  | some p => p.2
  | none => x

/-- Marker for a `NonIncreasing` classification. -/
def SliceKind.isNonIncr : SliceKind → Bool
  | SliceKind.nonIncreasing _ _ _ _ => true
  | _ => false

/-- The residual rectangle allocated in the `NonIncreasing` branch of the
pair loop of `local_search` (`new Rectangle(top_left_row, ..., span made)`,
with grid weight); for any other classification the value is a dummy that
is never used. -/
def residualRect (g : Grid) (r3 join : Rect) : Rect :=
  match determine_intersection_type g r3 join with
  | SliceKind.nonIncreasing a b c d => mkRect g a b c d
  | _ => r3

/-! ### Lemmas: spans and boxes -/

lemma mem_boxBits {N t l b r p : Nat} :
    p ∈ boxBits N t l b r ↔
      ∃ i j, t ≤ i ∧ i ≤ b ∧ l ≤ j ∧ j ≤ r ∧ p = N * i + j := by
  unfold boxBits
  simp only [Finset.mem_image, Finset.mem_product, Finset.mem_Icc, Prod.exists]
  constructor
  · rintro ⟨i, j, ⟨⟨h1, h2⟩, h3, h4⟩, h5⟩
    exact ⟨i, j, h1, h2, h3, h4, h5.symm⟩
  · rintro ⟨i, j, h1, h2, h3, h4, h5⟩
    exact ⟨i, j, ⟨⟨h1, h2⟩, h3, h4⟩, h5.symm⟩

/-- Decompose a box bit position into its row and column, when the column
bound lies inside the grid width. -/
lemma mem_boxBits_div_mod {N t l b r p : Nat} (hN : 0 < N) (hr : r < N)
    (hp : p ∈ boxBits N t l b r) :
    t ≤ p / N ∧ p / N ≤ b ∧ l ≤ p % N ∧ p % N ≤ r := by
  rcases mem_boxBits.mp hp with ⟨i, j, h1, h2, h3, h4, h5⟩
  have hj : j < N := lt_of_le_of_lt h4 hr
  have hdiv : p / N = i := by
    subst h5; rw [Nat.mul_add_div hN, Nat.div_eq_of_lt hj, Nat.add_zero]
  have hmod : p % N = j := by
    subst h5; rw [Nat.mul_add_mod, Nat.mod_eq_of_lt hj]
  rw [hdiv, hmod]; exact ⟨h1, h2, h3, h4⟩

lemma mem_boxBits_of_div_mod {N t l b r p : Nat}
    (h1 : t ≤ p / N) (h2 : p / N ≤ b) (h3 : l ≤ p % N) (h4 : p % N ≤ r) :
    p ∈ boxBits N t l b r :=
  mem_boxBits.mpr ⟨p / N, p % N, h1, h2, h3, h4, by
    rw [Nat.mul_comm]; exact (Nat.div_add_mod' p N).symm⟩

lemma boxBits_nonempty {N t l b r : Nat} (htb : t ≤ b) (hlr : l ≤ r) :
    (boxBits N t l b r).Nonempty := by
  exact ⟨N * t + l, mem_boxBits.mpr ⟨t, l, le_refl _, htb, le_refl _, hlr, rfl⟩⟩

lemma boxBits_subset_range {N M t l b r : Nat} (hb : b < M) (hr : r < N) :
    boxBits N t l b r ⊆ Finset.range (M * N) := by
  intro p hp
  rcases mem_boxBits.mp hp with ⟨i, j, _, h2, _, h4, h5⟩
  have hi : i < M := lt_of_le_of_lt h2 hb
  have hj : j < N := lt_of_le_of_lt h4 hr
  rw [Finset.mem_range, h5]
  calc N * i + j < N * i + N := by omega
    _ = N * (i + 1) := by ring
    _ ≤ N * M := Nat.mul_le_mul_left N hi
    _ = M * N := Nat.mul_comm N M

lemma span_nonempty {g : Grid} {r : Rect} (h : r.InGrid g) :
    (r.span g).Nonempty :=
  boxBits_nonempty h.1.1 h.1.2

lemma span_subset_range {g : Grid} {r : Rect} (h : r.InGrid g) :
    r.span g ⊆ Finset.range (g.num_rows * g.num_columns) :=
  boxBits_subset_range h.2.1 h.2.2

lemma mem_span_iff {g : Grid} {r : Rect} {p : Nat}
    (hN : 0 < g.num_columns) (h : r.InGrid g) :
    p ∈ r.span g ↔
      (r.top_left_row ≤ p / g.num_columns ∧
        p / g.num_columns ≤ r.bottom_right_row ∧
        r.top_left_column ≤ p % g.num_columns ∧
        p % g.num_columns ≤ r.bottom_right_column) := by
  constructor
  · exact fun hp => mem_boxBits_div_mod hN h.2.2 hp
  · rintro ⟨h1, h2, h3, h4⟩; exact mem_boxBits_of_div_mod h1 h2 h3 h4

/-- A positive rectangle weight exhibits a strawberry inside the rectangle's
span (used to show every accepted greedy candidate covers a strawberry). -/
lemma weight_pos_berry_in_span {g : Grid} {r : Rect} (hg : r.InGrid g)
    (hw : 0 < weight_of_rectangle g r.top_left_row r.top_left_column
      r.bottom_right_row r.bottom_right_column) :
    ∃ p ∈ r.span g, p ∈ berryBits g := by
  unfold weight_of_rectangle at hw
  have hex : ∃ i ∈ Finset.Icc r.top_left_row r.bottom_right_row,
      ∑ j ∈ Finset.Icc r.top_left_column r.bottom_right_column, g.field i j ≠ 0 := by
    by_contra hall
    push_neg at hall
    have : ∑ i ∈ Finset.Icc r.top_left_row r.bottom_right_row,
        ∑ j ∈ Finset.Icc r.top_left_column r.bottom_right_column, g.field i j = 0 :=
      Finset.sum_eq_zero hall
    omega
  rcases hex with ⟨i, hi, hrow⟩
  have hex2 : ∃ j ∈ Finset.Icc r.top_left_column r.bottom_right_column,
      g.field i j ≠ 0 := by
    by_contra hall
    push_neg at hall
    exact hrow (Finset.sum_eq_zero hall)
  rcases hex2 with ⟨j, hj, hcell⟩
  rw [Finset.mem_Icc] at hi hj
  refine ⟨g.num_columns * i + j, ?_, ?_⟩
  · exact mem_boxBits.mpr ⟨i, j, hi.1, hi.2, hj.1, hj.2, rfl⟩
  · unfold berryBits strawberries
    refine Finset.mem_image.mpr ⟨(i, j), ?_, rfl⟩
    refine Finset.mem_filter.mpr ⟨?_, hcell⟩
    refine Finset.mem_product.mpr ⟨?_, ?_⟩
    · exact Finset.mem_range.mpr (lt_of_le_of_lt hi.2 hg.2.1)
    · exact Finset.mem_range.mpr (lt_of_le_of_lt hj.2 hg.2.2)

/-! ### Lemmas: the generator -/

lemma chainGo_mem {g : Grid} {row col right : Nat} :
    ∀ {downs : List Nat} {w0 : Nat} {x : Rect}, x ∈ chainGo g row col right downs w0 →
      x.top_left_row = row ∧ x.top_left_column = col ∧
        x.bottom_right_column = right ∧ x.bottom_right_row ∈ downs ∧
        x.weight = weight_of_rectangle g row col x.bottom_right_row right ∧
        w0 < x.weight := by
  intro downs
  induction downs with
  | nil => intro w0 x hx; simp [chainGo] at hx
  | cons d rest ih =>
    intro w0 x hx
    simp only [chainGo] at hx
    by_cases hlt : w0 < weight_of_rectangle g row col d right
    · rw [if_pos hlt] at hx
      rcases List.mem_cons.mp hx with h | h
      · subst h; exact ⟨rfl, rfl, rfl, List.mem_cons_self _ _, rfl, hlt⟩
      · rcases ih h with ⟨h1, h2, h3, h4, h5, h6⟩
        exact ⟨h1, h2, h3, List.mem_cons_of_mem _ h4, h5, lt_trans hlt h6⟩
    · rw [if_neg hlt] at hx
      rcases ih hx with ⟨h1, h2, h3, h4, h5, h6⟩
      exact ⟨h1, h2, h3, List.mem_cons_of_mem _ h4, h5, h6⟩

/-- Along one chain, emissions strictly increase in both `bottom_right_row`
and weight. -/
lemma chainGo_pairwise {g : Grid} {row col right : Nat} :
    ∀ {downs : List Nat} {w0 : Nat}, downs.Pairwise (· < ·) →
      (chainGo g row col right downs w0).Pairwise
        (fun x y => x.bottom_right_row < y.bottom_right_row ∧ x.weight < y.weight) := by
  intro downs
  induction downs with
  | nil => intro w0 _; simp [chainGo]
  | cons d rest ih =>
    intro w0 hp
    rcases List.pairwise_cons.mp hp with ⟨hd, hrest⟩
    simp only [chainGo]
    by_cases hlt : w0 < weight_of_rectangle g row col d right
    · rw [if_pos hlt]
      refine List.pairwise_cons.mpr ⟨?_, ih hrest⟩
      intro y hy
      rcases chainGo_mem hy with ⟨_, _, _, h4, _, h6⟩
      exact ⟨hd _ h4, h6⟩
    · rw [if_neg hlt]
      exact ih hrest

lemma pairwise_two_mem {α : Type} {R : α → α → Prop} :
    ∀ {l : List α}, l.Pairwise R → ∀ {x y : α}, x ∈ l → y ∈ l →
      x = y ∨ R x y ∨ R y x := by
  intro l
  induction l with
  | nil => intro _ x y hx; simp at hx
  | cons a rest ih =>
    intro hp x y hx hy
    rcases List.pairwise_cons.mp hp with ⟨ha, hrest⟩
    rcases List.mem_cons.mp hx with hx1 | hx1 <;>
      rcases List.mem_cons.mp hy with hy1 | hy1
    · left; rw [hx1, hy1]
    · right; left; rw [hx1]; exact ha _ hy1
    · right; right; rw [hy1]; exact ha _ hx1
    · exact ih hrest hx1 hy1

/-- Membership in the generated list: the element belongs to the chain named
by its own bounds, its weight is the true grid weight and is positive, and
its bounds are ordered and in-grid. -/
lemma generate_mem {g : Grid} {x : Rect} (hx : x ∈ generate_rectangles g) :
    x.top_left_row < g.num_rows ∧ x.top_left_column < g.num_columns ∧
      x.top_left_column ≤ x.bottom_right_column ∧
      x.bottom_right_column < g.num_columns ∧
      x.top_left_row ≤ x.bottom_right_row ∧ x.bottom_right_row < g.num_rows ∧
      x.weight = weight_of_rectangle g x.top_left_row x.top_left_column
        x.bottom_right_row x.bottom_right_column ∧
      0 < x.weight ∧
      x ∈ chainGo g x.top_left_row x.top_left_column x.bottom_right_column
        (List.range' x.top_left_row (g.num_rows - x.top_left_row)) 0 := by
  unfold generate_rectangles at hx
  rcases List.mem_flatMap.mp hx with ⟨row, hrow, hx⟩
  rcases List.mem_flatMap.mp hx with ⟨col, hcol, hx⟩
  rcases List.mem_flatMap.mp hx with ⟨right, hright, hx⟩
  rw [List.mem_range] at hrow hcol
  rw [List.mem_range'] at hright
  rcases chainGo_mem hx with ⟨h1, h2, h3, h4, h5, h6⟩
  rw [List.mem_range'] at h4
  rcases h4 with ⟨i, hi, hdown⟩
  subst h1; subst h2; subst h3
  refine ⟨hrow, hcol, ?_, ?_, ?_, ?_, h5, h6, ?_⟩
  · omega
  · omega
  · omega
  · omega
  · exact hx

lemma generate_inGrid {g : Grid} {x : Rect} (hx : x ∈ generate_rectangles g) :
    x.InGrid g := by
  rcases generate_mem hx with ⟨_, _, h3, h4, h5, h6, _, _, _⟩
  exact ⟨⟨h5, h3⟩, h6, h4⟩

lemma weight_of_unit (g : Grid) (i j : Nat) :
    weight_of_rectangle g i j i j = g.field i j := by
  unfold weight_of_rectangle
  rw [Finset.Icc_self, Finset.sum_singleton, Finset.Icc_self, Finset.sum_singleton]

/-- The generator emits the 1×1 rectangle of every strawberry cell: the
first step of the `(i, j, j)` chain has weight `field i j > 0` against the
initial accumulator 0. -/
lemma unit_mem_generate {g : Grid} {i j : Nat} (hi : i < g.num_rows)
    (hj : j < g.num_columns) (hf : g.field i j ≠ 0) :
    unitRect g i j ∈ generate_rectangles g := by
  unfold generate_rectangles
  refine List.mem_flatMap.mpr ⟨i, List.mem_range.mpr hi, ?_⟩
  refine List.mem_flatMap.mpr ⟨j, List.mem_range.mpr hj, ?_⟩
  refine List.mem_flatMap.mpr ⟨j, ?_, ?_⟩
  · exact List.mem_range'.mpr ⟨0, by omega, by omega⟩
  · have hrows : List.range' i (g.num_rows - i) =
        i :: List.range' (i + 1) (g.num_rows - i - 1) := by
      have h1 : g.num_rows - i = (g.num_rows - i - 1) + 1 := by omega
      rw [h1, List.range'_succ]
      simp
    rw [hrows]
    simp only [chainGo, weight_of_unit]
    rw [if_pos (Nat.pos_of_ne_zero hf)]
    have hu : unitRect g i j =
        (⟨i, j, i, j, g.field i j⟩ : Rect) := by
      unfold unitRect mkRect; rw [weight_of_unit]
    rw [hu]
    exact List.mem_cons.mpr (Or.inl rfl)

lemma unit_span (g : Grid) (i j : Nat) :
    (unitRect g i j).span g = {g.num_columns * i + j} := by
  unfold unitRect mkRect Rect.span boxBits
  rw [Finset.Icc_self, Finset.Icc_self, Finset.singleton_product_singleton,
    Finset.image_singleton]

lemma berry_decomp {g : Grid} {p : Nat} (hp : p ∈ berryBits g) :
    ∃ i j, i < g.num_rows ∧ j < g.num_columns ∧ g.field i j ≠ 0 ∧
      p = g.num_columns * i + j ∧ p / g.num_columns = i ∧ p % g.num_columns = j := by
  unfold berryBits strawberries at hp
  rcases Finset.mem_image.mp hp with ⟨⟨i, j⟩, hij, hpe⟩
  rcases Finset.mem_filter.mp hij with ⟨hmem, hf⟩
  rcases Finset.mem_product.mp hmem with ⟨hi, hj⟩
  rw [Finset.mem_range] at hi hj
  have hN : 0 < g.num_columns := Nat.lt_of_le_of_lt (Nat.zero_le j) hj
  refine ⟨i, j, hi, hj, hf, hpe.symm, ?_, ?_⟩
  · rw [← hpe, Nat.mul_add_div hN, Nat.div_eq_of_lt hj, Nat.add_zero]
  · rw [← hpe, Nat.mul_add_mod, Nat.mod_eq_of_lt hj]

/-! ### Lemmas: the covering mask and greedy invariants -/

lemma coverUnion_nil (g : Grid) : coverUnion g [] = ∅ := rfl

lemma coverUnion_append (g : Grid) (l : List Rect) (r : Rect) :
    coverUnion g (l ++ [r]) = coverUnion g l ∪ r.span g := by
  induction l with
  | nil => simp [coverUnion]
  | cons a rest ih =>
    unfold coverUnion at ih ⊢
    simp only [List.cons_append, List.foldr_cons, ih, Finset.union_assoc]

lemma mem_coverUnion {g : Grid} {p : Nat} :
    ∀ {l : List Rect}, p ∈ coverUnion g l ↔ ∃ r ∈ l, p ∈ r.span g := by
  intro l
  induction l with
  | nil => simp [coverUnion]
  | cons a rest ih =>
    unfold coverUnion at ih ⊢
    simp only [List.foldr_cons, Finset.mem_union, ih, List.mem_cons]
    constructor
    · rintro (h | ⟨r, hr, hp⟩)
      · exact ⟨a, Or.inl rfl, h⟩
      · exact ⟨r, Or.inr hr, hp⟩
    · rintro ⟨r, hr | hr, hp⟩
      · left; rw [← hr]; exact hp
      · right; exact ⟨r, hr, hp⟩

/-- The do-while pop loop of `find_next_rectangle` never reaches the
fallback exit while the vector still holds a rectangle whose meet with the
covering mask is empty: it returns the first such rectangle, every earlier
candidate having been popped because its meet was nonempty. -/
lemma findNextLoop_spec {g : Grid} {covering : Finset Nat} :
    ∀ {l : List Rect}, (∃ c ∈ l, covering ∩ c.span g = ∅) →
      ∃ r rest dropped, findNextLoop g covering l = some (r, rest) ∧
        l = dropped ++ r :: rest ∧ covering ∩ r.span g = ∅ ∧
        ∀ x ∈ dropped, covering ∩ x.span g ≠ ∅ := by
  intro l
  induction l with
  | nil => rintro ⟨c, hc, _⟩; simp at hc
  | cons r rest ih =>
    rintro ⟨c, hc, hdisj⟩
    by_cases hr : covering ∩ r.span g = ∅
    · exact ⟨r, rest, [], by simp [findNextLoop, hr], by simp, hr, by simp⟩
    · have hcr : c ≠ r := fun h => hr (h ▸ hdisj)
      have hcrest : c ∈ rest := by
        rcases List.mem_cons.mp hc with h | h
        · exact absurd h hcr
        · exact h
      have hne : rest ≠ [] := List.ne_nil_of_mem hcrest
      rcases ih ⟨c, hcrest, hdisj⟩ with ⟨r', rest', dropped', heq, hsplit, hdisj', hall⟩
      refine ⟨r', rest', r :: dropped', ?_, ?_, hdisj', ?_⟩
      · rcases rest with _ | ⟨a, rest0⟩
        · exact absurd rfl hne
        · simp only [findNextLoop, if_neg hr]
          exact heq
      · rw [List.cons_append, hsplit]
      · intro x hx
        rcases List.mem_cons.mp hx with h | h
        · rw [h]; exact hr
        · exact hall x h

/-- `find_next_rectangle` on a vector holding at least one candidate whose
meet with the covering mask is empty: it succeeds, the accepted rectangle
has empty meet, every candidate not surviving was popped for a nonempty
meet, and the surviving vector is a sub-collection of the old one. -/
lemma find_next_spec {g : Grid} {covering : Finset Nat} {cands : List Rect}
    (hex : ∃ c ∈ cands, covering ∩ c.span g = ∅) :
    ∃ r rest, find_next_rectangle g covering cands = some (r, rest) ∧
      r ∈ cands ∧ covering ∩ r.span g = ∅ ∧
      (∀ x ∈ cands, x ∈ r :: rest ∨ covering ∩ x.span g ≠ ∅) ∧
      (∀ x ∈ rest, x ∈ cands) := by
  rcases cands with _ | ⟨a, rest0⟩
  · rcases hex with ⟨c, hc, _⟩; simp at hc
  · by_cases hcov : covering = ∅
    · refine ⟨a, a :: rest0, ?_, List.mem_cons_self _ _, ?_, ?_, ?_⟩
      · simp [find_next_rectangle, hcov]
      · rw [hcov]; exact Finset.empty_inter _
      · intro x hx; left; exact List.mem_cons_of_mem _ hx
      · intro x hx; exact hx
    · rcases findNextLoop_spec hex with ⟨r, rest, dropped, heq, hsplit, hdisj, hall⟩
      refine ⟨r, rest, ?_, ?_, hdisj, ?_, ?_⟩
      · simp only [find_next_rectangle, if_neg hcov]; exact heq
      · rw [hsplit]; exact List.mem_append.mpr (Or.inr (List.mem_cons_self _ _))
      · intro x hx
        rw [hsplit] at hx
        rcases List.mem_append.mp hx with h | h
        · right; exact hall x h
        · left; exact h
      · intro x hx
        rw [hsplit]
        exact List.mem_append.mpr (Or.inr (List.mem_cons_of_mem _ hx))

/-- One iteration of the greedy loop preserves the invariant and strictly
shrinks `unmatched`: with an uncovered strawberry present, its 1×1 candidate
is still in the vector, so the pop loop accepts some rectangle with empty
meet; that rectangle has positive true weight, hence covers some unmatched
strawberry. -/
lemma greedy_step_inv {g : Grid} {st : GreedyState} (hinv : GreedyInv g st)
    (hne : st.unmatched ≠ ∅) :
    ∃ (r : Rect) (rest : List Rect),
      find_next_rectangle g st.covering st.rectangles = some (r, rest) ∧
      GreedyInv g (GreedyState.mk rest (st.covering ∪ r.span g)
        (st.result ++ [r]) (st.unmatched \ (st.covering ∪ r.span g))) ∧
      (st.unmatched \ (st.covering ∪ r.span g)).card < st.unmatched.card := by
  obtain ⟨hcov, hunm, hcovinv, hcands, hsing⟩ := hinv
  obtain ⟨p, hp⟩ := Finset.nonempty_iff_ne_empty.mpr hne
  have hpbc : p ∈ berryBits g ∧ p ∉ st.covering := by
    rw [hunm, Finset.mem_sdiff] at hp; exact hp
  obtain ⟨i, j, hi, hj, hf, hpe, hdiv, hmod⟩ := berry_decomp hpbc.1
  have husing : unitRect g (p / g.num_columns) (p % g.num_columns) ∈ st.rectangles :=
    hsing p hpbc.1 hpbc.2
  have huspan : (unitRect g (p / g.num_columns) (p % g.num_columns)).span g = {p} := by
    rw [unit_span, hdiv, hmod, hpe]
  have hex : ∃ c ∈ st.rectangles, st.covering ∩ c.span g = ∅ := by
    refine ⟨_, husing, ?_⟩
    rw [huspan]
    rw [Finset.eq_empty_iff_forall_not_mem]
    intro q hq
    rcases Finset.mem_inter.mp hq with ⟨hq1, hq2⟩
    rw [Finset.mem_singleton] at hq2
    exact hpbc.2 (hq2 ▸ hq1)
  obtain ⟨r, rest, hfind, hrmem, hrdisj, hkeep, hsub⟩ := find_next_spec hex
  obtain ⟨hrgrid, hrwpos, hrwtrue⟩ := hcands r hrmem
  -- the accepted rectangle covers a currently unmatched strawberry
  have hq0 : ∃ q ∈ r.span g, q ∈ berryBits g := by
    apply weight_pos_berry_in_span hrgrid
    rw [← hrwtrue]; exact hrwpos
  obtain ⟨q0, hq0span, hq0berry⟩ := hq0
  have hq0ncov : q0 ∉ st.covering := by
    intro hin
    have : q0 ∈ st.covering ∩ r.span g := Finset.mem_inter.mpr ⟨hin, hq0span⟩
    rw [hrdisj] at this
    exact absurd this (Finset.not_mem_empty _)
  have hq0un : q0 ∈ st.unmatched := by
    rw [hunm, Finset.mem_sdiff]; exact ⟨hq0berry, hq0ncov⟩
  refine ⟨r, rest, hfind, ⟨?_, ?_, ⟨?_, ?_⟩, ?_, ?_⟩, ?_⟩
  · rw [coverUnion_append, hcov]
  · rw [hunm]
    ext q
    simp only [Finset.mem_sdiff, Finset.mem_union]
    tauto
  · intro x hx
    rcases List.mem_append.mp hx with h | h
    · exact hcovinv.1 x h
    · rw [List.mem_singleton.mp h]; exact hrgrid
  · rw [List.pairwise_append]
    refine ⟨hcovinv.2, List.pairwise_singleton _ _, ?_⟩
    intro a ha b hb
    rw [List.mem_singleton.mp hb]
    have haspan : a.span g ⊆ st.covering := by
      rw [hcov]
      intro q hq
      exact mem_coverUnion.mpr ⟨a, ha, hq⟩
    rw [Finset.eq_empty_iff_forall_not_mem]
    intro q hq
    rcases Finset.mem_inter.mp hq with ⟨hq1, hq2⟩
    have : q ∈ st.covering ∩ r.span g := Finset.mem_inter.mpr ⟨haspan hq1, hq2⟩
    rw [hrdisj] at this
    exact absurd this (Finset.not_mem_empty _)
  · intro c hc
    exact hcands c (hsub c hc)
  · intro q hq hqncov
    have hqnc : q ∉ st.covering := fun h => hqncov (Finset.mem_union_left _ h)
    have huq := hsing q hq hqnc
    obtain ⟨i', j', hi', hj', hf', hqe, hdiv', hmod'⟩ := berry_decomp hq
    have huqspan : (unitRect g (q / g.num_columns) (q % g.num_columns)).span g = {q} := by
      rw [unit_span, hdiv', hmod', hqe]
    rcases hkeep _ huq with h | h
    · rcases List.mem_cons.mp h with h1 | h1
      · exfalso
        apply hqncov
        apply Finset.mem_union_right
        have : q ∈ (unitRect g (q / g.num_columns) (q % g.num_columns)).span g := by
          rw [huqspan]; exact Finset.mem_singleton_self q
        rw [h1] at this
        exact this
      · exact h1
    · exfalso
      apply h
      rw [huqspan]
      rw [Finset.eq_empty_iff_forall_not_mem]
      intro x hx
      rcases Finset.mem_inter.mp hx with ⟨hx1, hx2⟩
      rw [Finset.mem_singleton] at hx2
      exact hqnc (hx2 ▸ hx1)
  · apply Finset.card_lt_card
    rw [Finset.ssubset_iff_of_subset Finset.sdiff_subset]
    refine ⟨q0, hq0un, ?_⟩
    rw [Finset.mem_sdiff]
    intro h
    exact h.2 (Finset.mem_union_right _ hq0span)

/-- The greedy loop, started in an invariant state with fuel at least the
number of unmatched strawberries, ends in an invariant state with every
strawberry matched. -/
lemma greedyGo_inv {g : Grid} :
    ∀ (fuel : Nat) (st : GreedyState), GreedyInv g st → st.unmatched.card ≤ fuel →
      GreedyInv g (greedyGo g fuel st) ∧ (greedyGo g fuel st).unmatched = ∅ := by
  intro fuel
  induction fuel with
  | zero =>
    intro st hinv hcard
    have : st.unmatched = ∅ := Finset.card_eq_zero.mp (Nat.le_zero.mp hcard)
    exact ⟨hinv, this⟩
  | succ n ih =>
    intro st hinv hcard
    by_cases hne : st.unmatched = ∅
    · simp only [greedyGo, if_pos hne]
      exact ⟨hinv, hne⟩
    · obtain ⟨r, rest, hfind, hinv', hlt⟩ := greedy_step_inv hinv hne
      simp only [greedyGo, if_neg hne, hfind]
      exact ih _ hinv' (Nat.lt_succ_iff.mp (Nat.lt_of_lt_of_le hlt hcard))

/-- A state with nothing unmatched is a fixed point of the greedy loop. -/
lemma greedyGo_of_empty {g : Grid} {st : GreedyState} (h : st.unmatched = ∅) :
    ∀ n, greedyGo g n st = st := by
  intro n
  cases n with
  | zero => rfl
  | succ m => simp only [greedyGo, if_pos h]

/-- Fuel composition for the greedy loop. -/
lemma greedyGo_add {g : Grid} :
    ∀ (a b : Nat) (st : GreedyState),
      greedyGo g (a + b) st = greedyGo g b (greedyGo g a st) := by
  intro a
  induction a with
  | zero => intro b st; rw [Nat.zero_add]; rfl
  | succ n ih =>
    intro b st
    by_cases hne : st.unmatched = ∅
    · rw [greedyGo_of_empty hne (n + 1 + b), greedyGo_of_empty hne (n + 1),
        greedyGo_of_empty hne b]
    · cases hfind : find_next_rectangle g st.covering st.rectangles with
      | none =>
        have h3 : ∀ m, greedyGo g m st = st := by
          intro m
          cases m with
          | zero => rfl
          | succ k => simp only [greedyGo, if_neg hne, hfind]
        have h2 : n + 1 + b = (n + b) + 1 := by omega
        rw [h2, h3, h3, h3]
      | some pr =>
        rcases pr with ⟨r, rest⟩
        have h2 : n + 1 + b = (n + b) + 1 := by omega
        rw [h2]
        simp only [greedyGo, if_neg hne, hfind]
        exact ih b _

/-- The initial greedy state satisfies the invariant whenever the candidate
list is a permutation of the generated rectangles. -/
lemma init_greedy_inv {g : Grid} {cands : List Rect}
    (hperm : List.Perm cands (generate_rectangles g)) :
    GreedyInv g (initGreedyState g cands) := by
  refine ⟨rfl, ?_, ⟨?_, ?_⟩, ?_, ?_⟩
  · exact (Finset.sdiff_empty).symm
  · intro r hr; exact absurd hr (List.not_mem_nil r)
  · exact List.Pairwise.nil
  · intro c hc
    have hcg : c ∈ generate_rectangles g := hperm.mem_iff.mp hc
    rcases generate_mem hcg with ⟨_, _, h3, h4, h5, h6, h7, h8, _⟩
    exact ⟨⟨⟨h5, h3⟩, h6, h4⟩, h8, h7⟩
  · intro p hp _
    obtain ⟨i, j, hi, hj, hf, hpe, hdiv, hmod⟩ := berry_decomp hp
    rw [hdiv, hmod]
    exact hperm.mem_iff.mpr (unit_mem_generate hi hj hf)

/-! ### Lemmas: the slice classifier -/

lemma sub_mod_div (p N : Nat) : (p - p % N) / N = p / N := by
  rcases Nat.eq_zero_or_pos N with h | h
  · subst h; rw [Nat.mod_zero, Nat.sub_self, Nat.div_zero, Nat.div_zero]
  · have hd := Nat.div_add_mod p N
    have h2 : p - p % N = N * (p / N) := by omega
    rw [h2, Nat.mul_div_cancel_left _ h]

lemma min_untop_eq_min' {s : Finset Nat} (hs : s.Nonempty) :
    WithTop.untop' 0 s.min = s.min' hs := by
  rw [← Finset.coe_min' hs]
  rfl

lemma max_unbot_eq_max' {s : Finset Nat} (hs : s.Nonempty) :
    WithBot.unbot' 0 s.max = s.max' hs := by
  rw [← Finset.coe_max' hs]
  rfl

lemma firstBit_eq_min' {s : Finset Nat} (hs : s.Nonempty) :
    firstBit s = s.min' hs := min_untop_eq_min' hs

lemma lastBit_eq_max' {s : Finset Nat} (hs : s.Nonempty) :
    lastBit s = s.max' hs := max_unbot_eq_max' hs

lemma min'_image_mono {f : Nat → Nat} (hf : Monotone f) {s : Finset Nat}
    (hs : s.Nonempty) :
    (s.image f).min' (hs.image f) = f (s.min' hs) := by
  apply le_antisymm
  · exact Finset.min'_le _ _ (Finset.mem_image_of_mem f (Finset.min'_mem s hs))
  · apply Finset.le_min'
    intro y hy
    rcases Finset.mem_image.mp hy with ⟨x, hx, hxy⟩
    rw [← hxy]
    exact hf (Finset.min'_le s x hx)

lemma max'_image_mono {f : Nat → Nat} (hf : Monotone f) {s : Finset Nat}
    (hs : s.Nonempty) :
    (s.image f).max' (hs.image f) = f (s.max' hs) := by
  apply le_antisymm
  · apply Finset.max'_le
    intro y hy
    rcases Finset.mem_image.mp hy with ⟨x, hx, hxy⟩
    rw [← hxy]
    exact hf (Finset.le_max' s x hx)
  · exact Finset.le_max' _ _ (Finset.mem_image_of_mem f (Finset.max'_mem s hs))

lemma boxBits_min' {N t l b r : Nat} (htb : t ≤ b) (hlr : l ≤ r) :
    (boxBits N t l b r).min' (boxBits_nonempty htb hlr) = N * t + l := by
  apply le_antisymm
  · exact Finset.min'_le _ _
      (mem_boxBits.mpr ⟨t, l, le_refl _, htb, le_refl _, hlr, rfl⟩)
  · apply Finset.le_min'
    intro y hy
    rcases mem_boxBits.mp hy with ⟨i, j, h1, _, h3, _, h5⟩
    have : N * t ≤ N * i := Nat.mul_le_mul_left N h1
    omega

lemma boxBits_max' {N t l b r : Nat} (htb : t ≤ b) (hlr : l ≤ r) :
    (boxBits N t l b r).max' (boxBits_nonempty htb hlr) = N * b + r := by
  apply le_antisymm
  · apply Finset.max'_le
    intro y hy
    rcases mem_boxBits.mp hy with ⟨i, j, _, h2, _, h4, h5⟩
    have : N * i ≤ N * b := Nat.mul_le_mul_left N h2
    omega
  · exact Finset.le_max' _ _
      (mem_boxBits.mpr ⟨b, r, htb, le_refl _, hlr, le_refl _, rfl⟩)

/-- The image of a bit set under the column projection consists of numbers
below `N`. -/
lemma mod_image_lt {N : Nat} (hN : 0 < N) {s : Finset Nat} {x : Nat}
    (hx : x ∈ s.image (fun p => p % N)) : x < N := by
  rcases Finset.mem_image.mp hx with ⟨p, _, hpe⟩
  rw [← hpe]
  exact Nat.mod_lt p hN

/-- A full box reproduces itself through the first-bit/last-bit bounds: the
first set bit of a box sits at its top-left corner and the last at its
bottom-right corner, so the box over those bounds is the set itself, and
the column components of the classifier's validity test hold. -/
lemma isFullBox_cols {g : Grid} {s : Finset Nat} (hN : 0 < g.num_columns)
    (hs : s.Nonempty) (hfull : IsFullBox g.num_columns s) :
    firstBit s % g.num_columns = firstBit (s.image (fun p => p % g.num_columns)) ∧
    lastBit s % g.num_columns = lastBit (s.image (fun p => p % g.num_columns)) ∧
    boxBits g.num_columns (firstBit s / g.num_columns) (firstBit s % g.num_columns)
      (lastBit s / g.num_columns) (lastBit s % g.num_columns) = s := by
  have hdivne : (s.image (fun p => p / g.num_columns)).Nonempty := hs.image _
  have hcolsne : (s.image (fun p => p % g.num_columns)).Nonempty := hs.image _
  set rm := (s.image (fun p => p / g.num_columns)).min.untop' 0 with hrm
  set cm := (s.image (fun p => p % g.num_columns)).min.untop' 0 with hcm
  set rM := (s.image (fun p => p / g.num_columns)).max.unbot' 0 with hrM
  set cM := (s.image (fun p => p % g.num_columns)).max.unbot' 0 with hcM
  have hrmle : rm ≤ rM := by
    rw [hrm, hrM, min_untop_eq_min' hdivne, max_unbot_eq_max' hdivne]
    exact Finset.min'_le _ _ (Finset.max'_mem _ hdivne)
  have hcmle : cm ≤ cM := by
    rw [hcm, hcM, min_untop_eq_min' hcolsne, max_unbot_eq_max' hcolsne]
    exact Finset.min'_le _ _ (Finset.max'_mem _ hcolsne)
  have hcMlt : cM < g.num_columns := by
    rw [hcM, max_unbot_eq_max' hcolsne]
    exact mod_image_lt hN (Finset.max'_mem _ hcolsne)
  have hsbox : s = boxBits g.num_columns rm cm rM cM := hfull
  -- the first bit of the box is its top-left corner
  have hfirstbox : firstBit s = g.num_columns * rm + cm := by
    rw [congrArg firstBit hsbox, firstBit_eq_min' (boxBits_nonempty hrmle hcmle),
      boxBits_min' hrmle hcmle]
  have hlastbox : lastBit s = g.num_columns * rM + cM := by
    rw [congrArg lastBit hsbox, lastBit_eq_max' (boxBits_nonempty hrmle hcmle),
      boxBits_max' hrmle hcmle]
  have hfd : firstBit s / g.num_columns = rm := by
    rw [hfirstbox, Nat.mul_add_div hN, Nat.div_eq_of_lt (lt_of_le_of_lt hcmle hcMlt),
      Nat.add_zero]
  have hfm : firstBit s % g.num_columns = cm := by
    rw [hfirstbox, Nat.mul_add_mod, Nat.mod_eq_of_lt (lt_of_le_of_lt hcmle hcMlt)]
  have hld : lastBit s / g.num_columns = rM := by
    rw [hlastbox, Nat.mul_add_div hN, Nat.div_eq_of_lt hcMlt, Nat.add_zero]
  have hlm : lastBit s % g.num_columns = cM := by
    rw [hlastbox, Nat.mul_add_mod, Nat.mod_eq_of_lt hcMlt]
  refine ⟨hfm, hlm, ?_⟩
  rw [hfd, hfm, hld, hlm]
  exact hsbox.symm

/-- The complete behaviour of the scan-and-test block on a nonempty
in-range bit set: it answers `NonIncreasing`, with first-bit/last-bit
bounds whose box reproduces the set, exactly when the set is a full
rectangle; otherwise it answers `Increasing`. -/
lemma classify_leftover_spec {g : Grid} {s : Finset Nat} (hN : 0 < g.num_columns)
    (hs : s.Nonempty) (hrange : s ⊆ Finset.range (g.num_rows * g.num_columns)) :
    (IsFullBox g.num_columns s ∧
      classify_leftover g s = SliceKind.nonIncreasing
        (firstBit s / g.num_columns) (firstBit s % g.num_columns)
        (lastBit s / g.num_columns) (lastBit s % g.num_columns) ∧
      boxBits g.num_columns (firstBit s / g.num_columns) (firstBit s % g.num_columns)
        (lastBit s / g.num_columns) (lastBit s % g.num_columns) = s ∧
      firstBit s / g.num_columns ≤ lastBit s / g.num_columns ∧
      firstBit s % g.num_columns ≤ lastBit s % g.num_columns ∧
      lastBit s / g.num_columns < g.num_rows ∧
      lastBit s % g.num_columns < g.num_columns) ∨
    (¬ IsFullBox g.num_columns s ∧ classify_leftover g s = SliceKind.increasing) := by
  have hrowsne : (s.image (fun p => (p - p % g.num_columns) / g.num_columns)).Nonempty :=
    hs.image _
  have hcolsne : (s.image (fun p => p % g.num_columns)).Nonempty := hs.image _
  have hrows_eq : s.image (fun p => (p - p % g.num_columns) / g.num_columns) =
      s.image (fun p => p / g.num_columns) :=
    Finset.image_congr (fun p _ => sub_mod_div p g.num_columns)
  have hdivne : (s.image (fun p => p / g.num_columns)).Nonempty := hs.image _
  have hfirst : firstBit s = s.min' hs := firstBit_eq_min' hs
  have hlast : lastBit s = s.max' hs := lastBit_eq_max' hs
  have hfl : firstBit s ≤ lastBit s := by
    rw [hfirst, hlast]
    exact Finset.min'_le _ _ (Finset.max'_mem s hs)
  -- the row components of `is_valid_bounds` hold automatically
  have hminrow : firstBit (s.image (fun p => (p - p % g.num_columns) / g.num_columns)) =
      firstBit s / g.num_columns := by
    rw [hrows_eq, firstBit_eq_min' hdivne,
      min'_image_mono (fun a b hab => Nat.div_le_div_right hab) hs, hfirst]
  have hmaxrow : lastBit (s.image (fun p => (p - p % g.num_columns) / g.num_columns)) =
      lastBit s / g.num_columns := by
    rw [hrows_eq, lastBit_eq_max' hdivne,
      max'_image_mono (fun a b hab => Nat.div_le_div_right hab) hs, hlast]
  have hcolmm : firstBit (s.image (fun p => p % g.num_columns)) ≤
      lastBit (s.image (fun p => p % g.num_columns)) := by
    rw [firstBit_eq_min' hcolsne, lastBit_eq_max' hcolsne]
    exact Finset.min'_le _ _ (Finset.max'_mem _ hcolsne)
  have hlast_mem : lastBit s ∈ s := by rw [hlast]; exact Finset.max'_mem s hs
  have hlast_range : lastBit s < g.num_rows * g.num_columns :=
    Finset.mem_range.mp (hrange hlast_mem)
  have hbrr_lt : lastBit s / g.num_columns < g.num_rows := by
    rw [Nat.div_lt_iff_lt_mul hN]
    exact hlast_range
  have hbrc_lt : lastBit s % g.num_columns < g.num_columns := Nat.mod_lt _ hN
  have hdivmono : firstBit s / g.num_columns ≤ lastBit s / g.num_columns :=
    Nat.div_le_div_right hfl
  by_cases hcond : ((firstBit s - firstBit s % g.num_columns) / g.num_columns =
        firstBit (s.image (fun p => (p - p % g.num_columns) / g.num_columns)) ∧
      firstBit s % g.num_columns = firstBit (s.image (fun p => p % g.num_columns)) ∧
      (lastBit s - lastBit s % g.num_columns) / g.num_columns =
        lastBit (s.image (fun p => (p - p % g.num_columns) / g.num_columns)) ∧
      lastBit s % g.num_columns = lastBit (s.image (fun p => p % g.num_columns))) ∧
      (boxBits g.num_columns
          ((firstBit s - firstBit s % g.num_columns) / g.num_columns)
          (firstBit s % g.num_columns)
          ((lastBit s - lastBit s % g.num_columns) / g.num_columns)
          (lastBit s % g.num_columns)).filter
        (fun p => p < g.num_rows * g.num_columns) = s
  · left
    have hrun : classify_leftover g s = SliceKind.nonIncreasing
        ((firstBit s - firstBit s % g.num_columns) / g.num_columns)
        (firstBit s % g.num_columns)
        ((lastBit s - lastBit s % g.num_columns) / g.num_columns)
        (lastBit s % g.num_columns) := by
      unfold classify_leftover
      rw [if_pos hcond]
    rw [sub_mod_div, sub_mod_div] at hrun
    obtain ⟨hvalid, htest⟩ := hcond
    rw [sub_mod_div, sub_mod_div] at htest
    have hbox_sub : boxBits g.num_columns (firstBit s / g.num_columns)
        (firstBit s % g.num_columns) (lastBit s / g.num_columns)
        (lastBit s % g.num_columns) ⊆
        Finset.range (g.num_rows * g.num_columns) :=
      boxBits_subset_range hbrr_lt hbrc_lt
    have hfilter : (boxBits g.num_columns (firstBit s / g.num_columns)
        (firstBit s % g.num_columns) (lastBit s / g.num_columns)
        (lastBit s % g.num_columns)).filter
          (fun p => p < g.num_rows * g.num_columns) =
        boxBits g.num_columns (firstBit s / g.num_columns)
          (firstBit s % g.num_columns) (lastBit s / g.num_columns)
          (lastBit s % g.num_columns) :=
      Finset.filter_true_of_mem (fun p hp => Finset.mem_range.mp (hbox_sub hp))
    have hbox : boxBits g.num_columns (firstBit s / g.num_columns)
        (firstBit s % g.num_columns) (lastBit s / g.num_columns)
        (lastBit s % g.num_columns) = s := hfilter.symm.trans htest
    have hcolle : firstBit s % g.num_columns ≤ lastBit s % g.num_columns := by
      rcases hvalid with ⟨_, h2, _, h4⟩
      rw [h2, h4]
      exact hcolmm
    refine ⟨?_, hrun, hbox, hdivmono, hcolle, hbrr_lt, hbrc_lt⟩
    unfold IsFullBox
    rcases hvalid with ⟨_, h2, _, h4⟩
    have e1 : (s.image (fun p => p / g.num_columns)).min.untop' 0 =
        firstBit s / g.num_columns := by
      rw [← hrows_eq]; exact hminrow
    have e3 : (s.image (fun p => p / g.num_columns)).max.unbot' 0 =
        lastBit s / g.num_columns := by
      rw [← hrows_eq]; exact hmaxrow
    have e2 : ((s.image (fun p => p % g.num_columns)).min.untop' 0 : Nat) =
        firstBit s % g.num_columns := h2.symm
    have e4 : ((s.image (fun p => p % g.num_columns)).max.unbot' 0 : Nat) =
        lastBit s % g.num_columns := h4.symm
    rw [e1, e2, e3, e4, hbox]
  · right
    have hrun : classify_leftover g s = SliceKind.increasing := by
      unfold classify_leftover
      rw [if_neg hcond]
    refine ⟨?_, hrun⟩
    intro hfull
    apply hcond
    obtain ⟨hc2, hc4, hbox⟩ := isFullBox_cols hN hs hfull
    have e2 : firstBit s % g.num_columns =
        firstBit (s.image (fun p => p % g.num_columns)) := hc2
    have e4 : lastBit s % g.num_columns =
        lastBit (s.image (fun p => p % g.num_columns)) := hc4
    refine ⟨⟨?_, e2, ?_, e4⟩, ?_⟩
    · rw [sub_mod_div, hminrow]
    · rw [sub_mod_div, hmaxrow]
    · rw [sub_mod_div, sub_mod_div, hbox]
      apply Finset.filter_true_of_mem
      intro p hp
      exact Finset.mem_range.mp (hrange hp)


lemma classify_leftover_not_void {g : Grid} {s : Finset Nat} :
    classify_leftover g s ≠ SliceKind.void ∧
    classify_leftover g s ≠ SliceKind.decreasing := by
  simp only [classify_leftover]
  split_ifs <;> simp

lemma determine_void_iff {g : Grid} (r3 join : Rect) :
    determine_intersection_type g r3 join = SliceKind.void ↔
      r3.span g ∩ join.span g = ∅ := by
  unfold determine_intersection_type
  split_ifs with h1 h2
  · simp [h1]
  · simp [h1]
  · simpa [h1] using (classify_leftover_not_void (g := g)
      (s := r3.span g \ join.span g)).1

lemma determine_decreasing_iff {g : Grid} (r3 join : Rect) :
    determine_intersection_type g r3 join = SliceKind.decreasing ↔
      (r3.span g ∩ join.span g ≠ ∅ ∧ r3.span g ⊆ join.span g) := by
  unfold determine_intersection_type
  split_ifs with h1 h2
  · simp [h1]
  · simp [h1, h2]
  · simpa [h1, h2] using (classify_leftover_not_void (g := g)
      (s := r3.span g \ join.span g)).2

/-- Inversion of a `NonIncreasing` classification: the residual bounds come
from the first and last set bits of the leftover, they are ordered and
in-grid, and the rectangle freshly constructed from them has exactly the
leftover as its span. -/
lemma determine_nonIncr_inv {g : Grid} {r3 join : Rect} {a b c d : Nat}
    (hN : 0 < g.num_columns) (h3 : r3.InGrid g)
    (h : determine_intersection_type g r3 join = SliceKind.nonIncreasing a b c d) :
    r3.span g ∩ join.span g ≠ ∅ ∧ ¬ r3.span g ⊆ join.span g ∧
    a = firstBit (r3.span g \ join.span g) / g.num_columns ∧
    b = firstBit (r3.span g \ join.span g) % g.num_columns ∧
    c = lastBit (r3.span g \ join.span g) / g.num_columns ∧
    d = lastBit (r3.span g \ join.span g) % g.num_columns ∧
    (mkRect g a b c d).InGrid g ∧
    (mkRect g a b c d).span g = r3.span g \ join.span g := by
  unfold determine_intersection_type at h
  split_ifs at h with h1 h2
  have hne : (r3.span g \ join.span g).Nonempty := Finset.sdiff_nonempty.mpr h2
  have hrange : r3.span g \ join.span g ⊆
      Finset.range (g.num_rows * g.num_columns) :=
    fun p hp => span_subset_range h3 (Finset.mem_sdiff.mp hp).1
  rcases classify_leftover_spec hN hne hrange with
    ⟨_, hrun, hbox, hac, hbd, hcM, hdN⟩ | ⟨_, hrun⟩
  · rw [hrun] at h
    have hinj := h
    rw [SliceKind.nonIncreasing.injEq] at hinj
    obtain ⟨ha, hb, hc, hd⟩ := hinj
    subst ha; subst hb; subst hc; subst hd
    refine ⟨h1, h2, rfl, rfl, rfl, rfl, ⟨⟨hac, hbd⟩, hcM, hdN⟩, hbox⟩
  · rw [hrun] at h
    exact absurd h (by simp)

/-- The classifier answers `NonIncreasing` exactly when the leftover is a
full rectangle (in a configuration where `r3` both meets and escapes the
join). -/
lemma determine_nonIncr_exists_iff {g : Grid} {r3 join : Rect}
    (hN : 0 < g.num_columns) (h3 : r3.InGrid g) :
    (∃ a b c d, determine_intersection_type g r3 join =
        SliceKind.nonIncreasing a b c d) ↔
      (r3.span g ∩ join.span g ≠ ∅ ∧ ¬ r3.span g ⊆ join.span g ∧
        IsFullBox g.num_columns (r3.span g \ join.span g)) := by
  unfold determine_intersection_type
  split_ifs with h1 h2
  · simp [h1]
  · simp [h1, h2]
  · have hne : (r3.span g \ join.span g).Nonempty := Finset.sdiff_nonempty.mpr h2
    have hrange : r3.span g \ join.span g ⊆
        Finset.range (g.num_rows * g.num_columns) :=
      fun p hp => span_subset_range h3 (Finset.mem_sdiff.mp hp).1
    rcases classify_leftover_spec hN hne hrange with
      ⟨hfull, hrun, _⟩ | ⟨hnfull, hrun⟩
    · rw [hrun]
      simp only [SliceKind.nonIncreasing.injEq]
      constructor
      · intro _; exact ⟨h1, h2, hfull⟩
      · intro _; exact ⟨_, _, _, _, rfl, rfl, rfl, rfl⟩
    · rw [hrun]
      constructor
      · rintro ⟨a, b, c, d, hk⟩
        exact absurd hk (by simp)
      · rintro ⟨_, _, hfull⟩
        exact absurd hfull hnfull

lemma determine_increasing_iff {g : Grid} {r3 join : Rect}
    (hN : 0 < g.num_columns) (h3 : r3.InGrid g) :
    determine_intersection_type g r3 join = SliceKind.increasing ↔
      (r3.span g ∩ join.span g ≠ ∅ ∧ ¬ r3.span g ⊆ join.span g ∧
        ¬ IsFullBox g.num_columns (r3.span g \ join.span g)) := by
  unfold determine_intersection_type
  split_ifs with h1 h2
  · simp [h1]
  · simp [h1, h2]
  · have hne : (r3.span g \ join.span g).Nonempty := Finset.sdiff_nonempty.mpr h2
    have hrange : r3.span g \ join.span g ⊆
        Finset.range (g.num_rows * g.num_columns) :=
      fun p hp => span_subset_range h3 (Finset.mem_sdiff.mp hp).1
    rcases classify_leftover_spec hN hne hrange with
      ⟨hfull, hrun, _⟩ | ⟨hnfull, hrun⟩
    · rw [hrun]
      constructor
      · intro hk; exact absurd hk (by simp)
      · rintro ⟨_, _, hnf⟩; exact absurd hfull hnf
    · rw [hrun]
      simp [h1, h2, hnfull]

/-! ### Lemmas: shades and penalty arithmetic -/

lemma foldl_add_int {A : Type} (f : A → Int) :
    ∀ (l : List A) (init : Int),
      l.foldl (fun acc x => acc + f x) init = init + (l.map f).sum := by
  intro l
  induction l with
  | nil => intro init; simp
  | cons x rest ih =>
    intro init
    simp only [List.foldl_cons, List.map_cons, List.sum_cons, ih]
    ring

/-- `Shade::penalty` computes the join cost minus the cost of the pair, the
envelope costs, and the penumbra area differences. -/
lemma penalty_formula (s : Shade) :
    s.penalty = (s.join.cost : Int) - ((s.rec1.cost : Int) + (s.rec2.cost : Int) +
      (s.envelope.map (fun r => (r.cost : Int))).sum +
      (s.penumbra.map (fun p => (p.1.area : Int) - (p.2.area : Int))).sum) := by
  unfold Shade.penalty
  rw [foldl_add_int, foldl_add_int]
  ring

/-! ### Lemmas: joins -/

lemma join_span_left (g : Grid) (r1 r2 : Rect) :
    r1.span g ⊆ (join_rectangles g r1 r2).span g := by
  intro p hp
  rcases mem_boxBits.mp hp with ⟨i, j, h1, h2, h3, h4, h5⟩
  unfold join_rectangles mkRect Rect.span
  apply mem_boxBits.mpr
  exact ⟨i, j, le_trans (Nat.min_le_left _ _) h1, le_trans h2 (Nat.le_max_left _ _),
    le_trans (Nat.min_le_left _ _) h3, le_trans h4 (Nat.le_max_left _ _), h5⟩

lemma join_span_right (g : Grid) (r1 r2 : Rect) :
    r2.span g ⊆ (join_rectangles g r1 r2).span g := by
  intro p hp
  rcases mem_boxBits.mp hp with ⟨i, j, h1, h2, h3, h4, h5⟩
  unfold join_rectangles mkRect Rect.span
  apply mem_boxBits.mpr
  exact ⟨i, j, le_trans (Nat.min_le_right _ _) h1, le_trans h2 (Nat.le_max_right _ _),
    le_trans (Nat.min_le_right _ _) h3, le_trans h4 (Nat.le_max_right _ _), h5⟩

lemma join_inGrid {g : Grid} {r1 r2 : Rect} (h1 : r1.InGrid g) (h2 : r2.InGrid g) :
    (join_rectangles g r1 r2).InGrid g := by
  unfold join_rectangles mkRect
  refine ⟨⟨?_, ?_⟩, ?_, ?_⟩
  · exact le_trans (Nat.min_le_left _ _) (le_trans h1.1.1 (Nat.le_max_left _ _))
  · exact le_trans (Nat.min_le_left _ _) (le_trans h1.1.2 (Nat.le_max_left _ _))
  · exact max_lt h1.2.1 h2.2.1
  · exact max_lt h1.2.2 h2.2.2

/-! ### Lemmas: covers -/

lemma pairwise_disj_mem {g : Grid} {cover : List Rect} (hinv : CoverInv g cover)
    {x y : Rect} (hx : x ∈ cover) (hy : y ∈ cover) (hne : x ≠ y) :
    x.span g ∩ y.span g = ∅ := by
  rcases pairwise_two_mem hinv.2 hx hy with h | h | h
  · exact absurd h hne
  · exact h
  · rw [Finset.inter_comm]; exact h

lemma coverInv_nodup {g : Grid} {cover : List Rect} (hinv : CoverInv g cover) :
    cover.Nodup := by
  have h := hinv.2
  unfold List.Nodup
  induction cover with
  | nil => exact List.Pairwise.nil
  | cons a rest ih =>
    rcases List.pairwise_cons.mp h with ⟨ha, hrest⟩
    refine List.pairwise_cons.mpr ⟨?_, ?_⟩
    · intro b hb hab
      have hbg : b.InGrid g := hinv.1 b (List.mem_cons_of_mem _ hb)
      have := ha b hb
      rw [← hab] at this
      rw [Finset.inter_self] at this
      rcases span_nonempty (hab ▸ hbg) with ⟨p, hp⟩
      rw [this] at hp
      exact absurd hp (Finset.not_mem_empty p)
    · exact ih ⟨fun r hr => hinv.1 r (List.mem_cons_of_mem _ hr), hrest⟩ hrest

/-- The join of two distinct disjoint cover members is never itself a cover
member: its span contains both nonempty spans of the pair. -/
lemma join_not_mem_cover {g : Grid} {cover : List Rect} {r1 r2 : Rect}
    (hinv : CoverInv g cover) (h1 : r1 ∈ cover) (h2 : r2 ∈ cover) (hne : r1 ≠ r2) :
    join_rectangles g r1 r2 ∉ cover := by
  intro hmem
  have hdisj12 : r1.span g ∩ r2.span g = ∅ := pairwise_disj_mem hinv h1 h2 hne
  by_cases hx1 : join_rectangles g r1 r2 = r1
  · -- then r1's span contains r2's nonempty span, contradicting disjointness
    rcases span_nonempty (hinv.1 r2 h2) with ⟨p, hp⟩
    have hpj : p ∈ (join_rectangles g r1 r2).span g := join_span_right g r1 r2 hp
    rw [hx1] at hpj
    have : p ∈ r1.span g ∩ r2.span g := Finset.mem_inter.mpr ⟨hpj, hp⟩
    rw [hdisj12] at this
    exact absurd this (Finset.not_mem_empty p)
  · have hdisj : (join_rectangles g r1 r2).span g ∩ r1.span g = ∅ :=
      pairwise_disj_mem hinv hmem h1 hx1
    rcases span_nonempty (hinv.1 r1 h1) with ⟨p, hp⟩
    have hpj : p ∈ (join_rectangles g r1 r2).span g := join_span_left g r1 r2 hp
    have : p ∈ (join_rectangles g r1 r2).span g ∩ r1.span g :=
      Finset.mem_inter.mpr ⟨hpj, hp⟩
    rw [hdisj] at this
    exact absurd this (Finset.not_mem_empty p)

/-! ### Lemmas: list plumbing for `apply_shade` -/

lemma length_filter_lt {A : Type} {p : A → Bool} :
    ∀ {l : List A} {x : A}, x ∈ l → p x = false → (l.filter p).length < l.length := by
  intro l
  induction l with
  | nil => intro x hx; simp at hx
  | cons a rest ih =>
    intro x hx hpx
    rcases List.mem_cons.mp hx with h | h
    · subst h
      rw [List.filter_cons, hpx]
      simp only [List.length_cons]
      exact Nat.lt_succ_of_le (List.length_filter_le p rest)
    · rw [List.filter_cons]
      cases hpa : p a
      · simp only [List.length_cons]
        exact Nat.lt_succ_of_lt (ih h hpx)
      · simp only [List.length_cons]
        exact Nat.succ_lt_succ (ih h hpx)

lemma foldl_erase_eq (env : List Rect) :
    ∀ (l : List Rect),
      env.foldl (fun acc e => acc.filter (fun r => r ≠ e)) l =
        l.filter (fun r => r ∉ env) := by
  induction env with
  | nil =>
    intro l
    simp only [List.foldl_nil]
    rw [List.filter_eq_self.mpr]
    intro a _
    simp
  | cons e env ih =>
    intro l
    simp only [List.foldl_cons]
    rw [ih, List.filter_filter]
    apply List.filter_congr
    intro x _
    by_cases hxe : x = e
    · subst hxe; simp
    · by_cases hxenv : x ∈ env <;> simp [hxe, hxenv]

lemma substList_nil (x : Rect) : substList [] x = x := rfl

lemma substList_not_key {pen : List (Rect × Rect)} {x : Rect}
    (h : ∀ p ∈ pen, p.1 ≠ x) : substList pen x = x := by
  unfold substList
  rw [List.find?_eq_none.mpr]
  intro p hp
  simpa using h p hp

lemma foldl_replace_eq {pen : List (Rect × Rect)}
    (hkv : ∀ p ∈ pen, ∀ q ∈ pen, p.2 ≠ q.1) :
    ∀ (l : List Rect),
      pen.foldl (fun acc p => acc.map (fun r => if r = p.1 then p.2 else r)) l =
        l.map (substList pen) := by
  induction pen with
  | nil =>
    intro l
    simp only [List.foldl_nil]
    have hid : ∀ (m : List Rect), m.map (substList []) = m := by
      intro m
      induction m with
      | nil => rfl
      | cons a b ihm => simp only [List.map_cons, substList_nil, ihm]
    rw [hid]
  | cons p pen ih =>
    intro l
    simp only [List.foldl_cons]
    have hkv' : ∀ a ∈ pen, ∀ b ∈ pen, a.2 ≠ b.1 := fun a ha b hb =>
      hkv a (List.mem_cons_of_mem _ ha) b (List.mem_cons_of_mem _ hb)
    rw [ih hkv', List.map_map]
    apply List.map_congr_left
    intro x _
    simp only [Function.comp_apply]
    by_cases hx : x = p.1
    · rw [if_pos hx]
      have hnk : ∀ q ∈ pen, q.1 ≠ p.2 := by
        intro q hq
        exact fun h =>
          hkv p (List.mem_cons_self _ _) q (List.mem_cons_of_mem _ hq) h.symm
      rw [substList_not_key hnk]
      unfold substList
      rw [hx]
      have : List.find? (fun q => q.1 = p.1) (p :: pen) = some p := by
        rw [List.find?_cons_of_pos]
        simp
      rw [this]
    · rw [if_neg hx]
      unfold substList
      have : List.find? (fun q => q.1 = x) (p :: pen) =
          List.find? (fun q => q.1 = x) pen := by
        rw [List.find?_cons_of_neg]
        simpa using fun h => hx h.symm
      rw [this]

/-- Substitution through a penumbra of the canonical mapped form: a member
of the base list with the marker true goes to its residual, everything else
is fixed. -/
lemma substList_mapped (pn : Rect → Bool) (F : Rect → Rect) :
    ∀ (dl : List Rect) (y : Rect),
      substList ((dl.filter pn).map (fun x => (x, F x))) y =
        if y ∈ dl ∧ pn y then F y else y := by
  intro dl
  induction dl with
  | nil =>
    intro y
    simp [substList_nil]
  | cons x rest ih =>
    intro y
    rw [List.filter_cons]
    cases hpx : pn x
    · rw [if_neg (by simp [hpx])]
      rw [ih y]
      by_cases hyx : y = x
      · subst hyx
        simp [hpx]
      · by_cases hyr : y ∈ rest <;> simp [hyx, hyr]
    · rw [if_pos (by simp [hpx]), List.map_cons]
      by_cases hyx : y = x
      · subst hyx
        unfold substList
        rw [List.find?_cons_of_pos _ (by simp)]
        simp [hpx]
      · unfold substList at ih ⊢
        rw [List.find?_cons_of_neg _ (by simpa using fun h => hyx h.symm)]
        rw [ih y]
        simp [hyx]

lemma filter_map_comm {A B : Type} (f : A → B) (p : B → Bool) :
    ∀ (l : List A), (l.map f).filter p = (l.filter (fun x => p (f x))).map f := by
  intro l
  induction l with
  | nil => rfl
  | cons x rest ih =>
    simp only [List.map_cons, List.filter_cons]
    cases hp : p (f x)
    · rw [if_neg (by simp [hp]), if_neg (by simp [hp])]
      exact ih
    · rw [if_pos (by simp [hp]), if_pos (by simp [hp]), List.map_cons, ih]

lemma filterMap_map_comm {A B C : Type} (f : A → B) (h : B → Option C) :
    ∀ (l : List A), (l.map f).filterMap h = l.filterMap (fun x => h (f x)) := by
  intro l
  induction l with
  | nil => rfl
  | cons x rest ih =>
    simp only [List.map_cons, List.filterMap_cons]
    cases hx : h (f x)
    · exact ih
    · rw [ih]

/-! ### Lemmas: sum accounting for one local-search application -/

/-- Generic accounting identity: the sum of `h` over the survivors of a
filter equals the total of `f` minus what the filter removed minus the
per-survivor change from `f` to `h`. -/
lemma sum_filter_change (f h : Rect → Int) (p : Rect → Bool) :
    ∀ (l : List Rect),
      ((l.filter (fun x => !(p x))).map h).sum =
        (l.map f).sum - ((l.filter p).map f).sum -
          ((l.filter (fun x => !(p x))).map (fun x => f x - h x)).sum := by
  intro l
  induction l with
  | nil => simp
  | cons x rest ih =>
    cases hp : p x
    · simp only [List.filter_cons, hp, Bool.not_false, if_true, if_false,
        List.map_cons, List.sum_cons, ite_true, ite_false, Bool.false_eq_true,
        List.sum_nil]
      rw [ih]
      ring
    · simp only [List.filter_cons, hp, Bool.not_true, if_true, if_false,
        List.map_cons, List.sum_cons, ite_true, ite_false, Bool.false_eq_true,
        List.sum_nil]
      rw [ih]
      ring

lemma sum_map_eq_filter (f : Rect → Int) (q : Rect → Bool) :
    ∀ (l : List Rect), (∀ x ∈ l, q x = false → f x = 0) →
      (l.map f).sum = ((l.filter q).map f).sum := by
  intro l
  induction l with
  | nil => intro _; rfl
  | cons x rest ih =>
    intro h0
    cases hq : q x
    · simp only [List.map_cons, List.sum_cons, List.filter_cons, hq,
        ite_true, ite_false, Bool.false_eq_true]
      rw [h0 x (List.mem_cons_self _ _) hq, Int.zero_add]
      exact ih (fun y hy => h0 y (List.mem_cons_of_mem _ hy))
    · simp only [List.map_cons, List.sum_cons, List.filter_cons, hq,
        ite_true, ite_false, Bool.false_eq_true]
      rw [ih (fun y hy => h0 y (List.mem_cons_of_mem _ hy))]

/-! ### Lemmas: inversion of `build_shade` -/

lemma filterMap_eq_filter_map {A B : Type} (h : A → Option B) (pn : A → Bool)
    (F : A → B) (hpt : ∀ x, h x = if pn x then some (F x) else none) :
    ∀ (l : List A), l.filterMap h = (l.filter pn).map F := by
  intro l
  induction l with
  | nil => rfl
  | cons x rest ih =>
    rw [List.filterMap_cons, List.filter_cons, hpt x]
    cases hp : pn x
    · simp only [ite_false, Bool.false_eq_true, if_false]
      exact ih
    · simp only [ite_true, if_true, List.map_cons, ih]

lemma filter_filterMap_none {A B : Type} (h : A → Option B) (q : A → Bool)
    (hq : ∀ x, q x = false → h x = none) :
    ∀ (l : List A), (l.filter q).filterMap h = l.filterMap h := by
  intro l
  induction l with
  | nil => rfl
  | cons x rest ih =>
    rw [List.filter_cons]
    cases hqx : q x
    · simp only [Bool.false_eq_true, if_false]
      rw [List.filterMap_cons, hq x hqx]
      exact ih
    · simp only [if_true]
      rw [List.filterMap_cons, List.filterMap_cons]
      cases h x
      · exact ih
      · rw [ih]

/-- Inversion of `build_shade`: a retained shade records the pair and its
join; its slice set has no `Increasing` member; the envelope is exactly the
`Decreasing`-classified part of the difference set and the penumbra pairs
each `NonIncreasing`-classified member with its freshly constructed
residual. -/
lemma build_shade_inv {g : Grid} {cover : List Rect} {r1 r2 : Rect} {sh : Shade}
    (hb : build_shade g cover r1 r2 = some sh) :
    sh.rec1 = r1 ∧ sh.rec2 = r2 ∧ sh.join = join_rectangles g r1 r2 ∧
    (∀ r3 ∈ cover.filter (fun r => r ≠ r1 ∧ r ≠ r2),
      determine_intersection_type g r3 (join_rectangles g r1 r2) ≠
        SliceKind.increasing) ∧
    sh.envelope = (cover.filter (fun r => r ≠ r1 ∧ r ≠ r2)).filter
      (fun r3 => determine_intersection_type g r3 (join_rectangles g r1 r2) =
        SliceKind.decreasing) ∧
    sh.penumbra = ((cover.filter (fun r => r ≠ r1 ∧ r ≠ r2)).filter
      (fun r3 => (determine_intersection_type g r3
        (join_rectangles g r1 r2)).isNonIncr)).map
      (fun r3 => (r3, residualRect g r3 (join_rectangles g r1 r2))) := by
  simp only [build_shade] at hb
  split_ifs at hb with hany
  rw [Option.some_inj] at hb
  subst hb
  refine ⟨rfl, rfl, rfl, ?_, ?_, ?_⟩
  · intro r3 hr3 hk
    apply hany
    rw [List.any_eq_true]
    refine ⟨(r3, determine_intersection_type g r3 (join_rectangles g r1 r2)),
      ?_, by simp [hk]⟩
    rw [List.mem_filter]
    constructor
    · exact List.mem_map_of_mem _ hr3
    · simp [hk]
  · rw [filter_map_comm, filter_map_comm, List.map_map, List.filter_filter]
    have hmapid : ∀ (dl : List Rect),
        dl.map (Prod.fst ∘ (fun r3 => (r3, determine_intersection_type g r3
          (join_rectangles g r1 r2)))) = dl := by
      intro dl
      have h1 : dl.map (Prod.fst ∘ (fun r3 => (r3, determine_intersection_type g r3
          (join_rectangles g r1 r2)))) = dl.map id :=
        List.map_congr_left (fun x _ => rfl)
      rw [h1, List.map_id]
    rw [hmapid]
    apply List.filter_congr
    intro x _
    cases hk : determine_intersection_type g x (join_rectangles g r1 r2) <;>
      simp [hk]
  · rw [filter_filterMap_none _ _ ?hnone, filterMap_map_comm,
      filterMap_eq_filter_map _
        (fun r3 => (determine_intersection_type g r3
          (join_rectangles g r1 r2)).isNonIncr)
        (fun r3 => (r3, residualRect g r3 (join_rectangles g r1 r2))) ?hpt]
    case hpt =>
      intro x
      unfold residualRect
      cases hk : determine_intersection_type g x (join_rectangles g r1 r2) <;>
        simp [SliceKind.isNonIncr, hk]
    case hnone =>
      intro p hp
      have : p.2 = SliceKind.void := by
        cases h2 : p.2 <;> simp [h2] at hp ⊢
      rw [this]

/-! ### Lemmas: shade ordering and choice of the minimum -/

lemma shadeLT_iff (a b : Shade) : shadeLT a b = true ↔
    (a.penalty < b.penalty ∨
      (a.penalty = b.penalty ∧ a.envelope.length < b.envelope.length)) := by
  unfold shadeLT
  split_ifs with h
  · simp [h]
  · simp [h]

lemma shadeLT_irrefl (a : Shade) : shadeLT a a = false := by
  rw [← Bool.not_eq_true, shadeLT_iff]
  omega

lemma shadeLT_skip {a b c : Shade} (h1 : shadeLT a b = false)
    (h2 : shadeLT b c = false) : shadeLT a c = false := by
  rw [← Bool.not_eq_true, shadeLT_iff] at h1 h2 ⊢
  omega

lemma shadeLT_skip2 {a b c : Shade} (h1 : shadeLT a b = true)
    (h2 : shadeLT a c = false) : shadeLT b c = false := by
  rw [shadeLT_iff] at h1
  rw [← Bool.not_eq_true, shadeLT_iff] at h2 ⊢
  omega

/-- `chooseBest` returns a member of the shade collection that no member
strictly precedes under `Shade::operator<`. -/
lemma chooseBest_min :
    ∀ (rest : List Shade) (b : Shade),
      chooseBest b rest ∈ b :: rest ∧
        ∀ s ∈ b :: rest, shadeLT s (chooseBest b rest) = false := by
  intro rest
  induction rest with
  | nil =>
    intro b
    refine ⟨List.mem_cons_self _ _, ?_⟩
    intro s hs
    rw [List.mem_singleton.mp hs]
    exact shadeLT_irrefl (chooseBest b [])
  | cons s rest ih =>
    intro b
    by_cases hlt : shadeLT s b = true
    · have hgo : chooseBest b (s :: rest) = chooseBest s rest := by
        simp only [chooseBest, if_pos hlt]
      rcases ih s with ⟨hmem, hall⟩
      constructor
      · rw [hgo]
        rcases List.mem_cons.mp hmem with h | h
        · rw [h]; exact List.mem_cons_of_mem _ (List.mem_cons_self _ _)
        · exact List.mem_cons_of_mem _ (List.mem_cons_of_mem _ h)
      · intro x hx
        rw [hgo]
        rcases List.mem_cons.mp hx with h | h
        · rw [h]
          exact shadeLT_skip2 hlt (hall s (List.mem_cons_self _ _))
        · exact hall x h
    · have hgo : chooseBest b (s :: rest) = chooseBest b rest := by
        simp only [chooseBest, if_neg hlt]
      rcases ih b with ⟨hmem, hall⟩
      constructor
      · rw [hgo]
        rcases List.mem_cons.mp hmem with h | h
        · rw [h]; exact List.mem_cons_self _ _
        · exact List.mem_cons_of_mem _ (List.mem_cons_of_mem _ h)
      · intro x hx
        rw [hgo]
        rcases List.mem_cons.mp hx with h | h
        · rw [h]; exact hall b (List.mem_cons_self _ _)
        · rcases List.mem_cons.mp h with h2 | h2
          · rw [h2]
            exact shadeLT_skip (Bool.eq_false_iff.mpr hlt)
              (hall b (List.mem_cons_self _ _))
          · exact hall x (List.mem_cons_of_mem _ h2)

lemma allPairs_mem {A : Type} :
    ∀ {l : List A} {a b : A}, l.Nodup → (a, b) ∈ allPairs l →
      a ∈ l ∧ b ∈ l ∧ a ≠ b := by
  intro l
  induction l with
  | nil => intro a b _ h; simp [allPairs] at h
  | cons x rest ih =>
    intro a b hnd hab
    rcases List.pairwise_cons.mp hnd with ⟨hx, hrest⟩
    unfold allPairs at hab
    rcases List.mem_append.mp hab with h | h
    · rcases List.mem_map.mp h with ⟨y, hy, hye⟩
      have ha : a = x := congrArg Prod.fst hye.symm
      have hb : b = y := congrArg Prod.snd hye.symm
      subst ha; subst hb
      exact ⟨List.mem_cons_self _ _, List.mem_cons_of_mem _ hy, hx b hy⟩
    · rcases ih hrest h with ⟨h1, h2, h3⟩
      exact ⟨List.mem_cons_of_mem _ h1, List.mem_cons_of_mem _ h2, h3⟩

lemma pairwise_imp_mem {A : Type} {R S : A → A → Prop} :
    ∀ {l : List A}, (∀ a ∈ l, ∀ b ∈ l, R a b → S a b) →
      l.Pairwise R → l.Pairwise S := by
  intro l
  induction l with
  | nil => intro _ _; exact List.Pairwise.nil
  | cons x rest ih =>
    intro h hp
    rcases List.pairwise_cons.mp hp with ⟨hx, hrest⟩
    refine List.pairwise_cons.mpr ⟨?_, ?_⟩
    · intro b hb
      exact h x (List.mem_cons_self _ _) b (List.mem_cons_of_mem _ hb) (hx b hb)
    · exact ih (fun a ha b hb => h a (List.mem_cons_of_mem _ ha) b
        (List.mem_cons_of_mem _ hb)) hrest

/-- Splitting the cost sum of a duplicate-free list at one member. -/
lemma sum_remove_one (f : Rect → Int) :
    ∀ {l : List Rect} {x : Rect}, l.Nodup → x ∈ l →
      (l.map f).sum = f x + ((l.filter (fun r => r ≠ x)).map f).sum := by
  intro l
  induction l with
  | nil => intro x _ hx; simp at hx
  | cons a rest ih =>
    intro x hnd hx
    rcases List.pairwise_cons.mp hnd with ⟨ha, hrest⟩
    rcases List.mem_cons.mp hx with h | h
    · subst h
      simp only [List.map_cons, List.sum_cons, List.filter_cons]
      rw [if_neg (by simp)]
      have : rest.filter (fun r => r ≠ x) = rest := by
        apply List.filter_eq_self.mpr
        intro b hb
        simpa using fun he => (ha b hb he.symm)
      rw [this]
    · have hax : a ≠ x := fun he => ha x h he
      simp only [List.map_cons, List.sum_cons, List.filter_cons]
      rw [if_pos (by simpa using hax), List.map_cons, List.sum_cons, ih hrest h]
      ring

/-- One shade application, written as a single pass: erase the pair and the
envelope, substitute residuals for penumbra originals, append the join.
Requires the shade to have been built from the (disjoint) cover. -/
lemma apply_shade_structure {g : Grid} {cover : List Rect} {r1 r2 : Rect} {sh : Shade}
    (hN : 0 < g.num_columns) (hinv : CoverInv g cover)
    (h1 : r1 ∈ cover) (h2 : r2 ∈ cover) (hne : r1 ≠ r2)
    (hb : build_shade g cover r1 r2 = some sh) :
    apply_shade cover sh =
      ((cover.filter (fun r => r ≠ r1 ∧ r ≠ r2)).filter
        (fun r3 => !(decide (determine_intersection_type g r3
          (join_rectangles g r1 r2) = SliceKind.decreasing)))).map
        (fun r3 => if (determine_intersection_type g r3
            (join_rectangles g r1 r2)).isNonIncr = true then
            residualRect g r3 (join_rectangles g r1 r2) else r3) ++
      [join_rectangles g r1 r2] := by
  obtain ⟨hr1, hr2, hj, hnoinc, henv, hpen⟩ := build_shade_inv hb
  have hdiff_sub : ∀ x ∈ cover.filter (fun r => r ≠ r1 ∧ r ≠ r2), x ∈ cover := by
    intro x hx; exact (List.mem_filter.mp hx).1
  have hJ_not_cover : join_rectangles g r1 r2 ∉ cover :=
    join_not_mem_cover hinv h1 h2 hne
  have hres : ∀ x ∈ cover.filter (fun r => r ≠ r1 ∧ r ≠ r2),
      (determine_intersection_type g x (join_rectangles g r1 r2)).isNonIncr = true →
      (residualRect g x (join_rectangles g r1 r2)).span g =
        x.span g \ (join_rectangles g r1 r2).span g ∧
      x.span g ∩ (join_rectangles g r1 r2).span g ≠ ∅ := by
    intro x hx hknx
    cases hk : determine_intersection_type g x (join_rectangles g r1 r2) with
    | void => rw [hk] at hknx; simp [SliceKind.isNonIncr] at hknx
    | decreasing => rw [hk] at hknx; simp [SliceKind.isNonIncr] at hknx
    | increasing => rw [hk] at hknx; simp [SliceKind.isNonIncr] at hknx
    | nonIncreasing a b c d =>
      have hinvx := determine_nonIncr_inv hN (hinv.1 x (hdiff_sub x hx)) hk
      have hrr : residualRect g x (join_rectangles g r1 r2) = mkRect g a b c d := by
        unfold residualRect; rw [hk]
      rw [hrr]
      obtain ⟨hi1, _, _, _, _, _, _, hspan⟩ := hinvx
      exact ⟨hspan, hi1⟩
  simp only [apply_shade]
  rw [hr1, hr2, hj, henv, hpen]
  have hstep1 : (cover.filter (fun r => r ≠ r1)).filter (fun r => r ≠ r2) =
      cover.filter (fun r => r ≠ r1 ∧ r ≠ r2) := by
    rw [List.filter_filter]
    apply List.filter_congr
    intro x _
    by_cases e1 : x = r1 <;> by_cases e2 : x = r2 <;> simp [e1, e2]
  rw [hstep1, foldl_erase_eq, List.filter_append]
  have hJerase : ([join_rectangles g r1 r2].filter
      (fun r => r ∉ (cover.filter (fun r => r ≠ r1 ∧ r ≠ r2)).filter
        (fun r3 => determine_intersection_type g r3 (join_rectangles g r1 r2) =
          SliceKind.decreasing))) = [join_rectangles g r1 r2] := by
    rw [List.filter_eq_self]
    intro a ha
    rw [List.mem_singleton.mp ha]
    simp only [decide_not]
    rw [Bool.not_eq_true', decide_eq_false_iff_not]
    intro hmem
    exact hJ_not_cover (hdiff_sub _ (List.mem_filter.mp hmem).1)
  rw [hJerase]
  have hstep3 : (cover.filter (fun r => r ≠ r1 ∧ r ≠ r2)).filter
      (fun r => r ∉ (cover.filter (fun r => r ≠ r1 ∧ r ≠ r2)).filter
        (fun r3 => determine_intersection_type g r3 (join_rectangles g r1 r2) =
          SliceKind.decreasing)) =
      (cover.filter (fun r => r ≠ r1 ∧ r ≠ r2)).filter
        (fun r3 => !(decide (determine_intersection_type g r3
          (join_rectangles g r1 r2) = SliceKind.decreasing))) := by
    apply List.filter_congr
    intro x hx
    by_cases hkd : determine_intersection_type g x (join_rectangles g r1 r2) =
        SliceKind.decreasing
    · have hmem : x ∈ (cover.filter (fun r => r ≠ r1 ∧ r ≠ r2)).filter
          (fun r3 => determine_intersection_type g r3 (join_rectangles g r1 r2) =
            SliceKind.decreasing) :=
        List.mem_filter.mpr ⟨hx, by simp [hkd]⟩
      simp [hmem, hkd]
      simpa using List.mem_filter.mp hx
    · have hmem : x ∉ (cover.filter (fun r => r ≠ r1 ∧ r ≠ r2)).filter
          (fun r3 => determine_intersection_type g r3 (join_rectangles g r1 r2) =
            SliceKind.decreasing) := by
        intro hc
        exact hkd (by simpa using (List.mem_filter.mp hc).2)
      simp [hmem, hkd]
  rw [hstep3]
  have hkv : ∀ p ∈ ((cover.filter (fun r => r ≠ r1 ∧ r ≠ r2)).filter
        (fun r3 => (determine_intersection_type g r3
          (join_rectangles g r1 r2)).isNonIncr)).map
      (fun r3 => (r3, residualRect g r3 (join_rectangles g r1 r2))),
      ∀ q ∈ ((cover.filter (fun r => r ≠ r1 ∧ r ≠ r2)).filter
        (fun r3 => (determine_intersection_type g r3
          (join_rectangles g r1 r2)).isNonIncr)).map
      (fun r3 => (r3, residualRect g r3 (join_rectangles g r1 r2))),
      p.2 ≠ q.1 := by
    intro p hp q hq
    rcases List.mem_map.mp hp with ⟨o, ho, hpe⟩
    rcases List.mem_map.mp hq with ⟨o2, ho2, hqe⟩
    rcases List.mem_filter.mp ho with ⟨hodiff, hokn⟩
    rcases List.mem_filter.mp ho2 with ⟨ho2diff, ho2kn⟩
    rw [← hpe, ← hqe]
    simp only
    intro hcontra
    have hro := (hres o hodiff hokn).1
    have hio2 := (hres o2 ho2diff ho2kn).2
    apply hio2
    rw [← hcontra, hro]
    exact Finset.sdiff_inter_self _ _
  rw [foldl_replace_eq hkv, List.map_append]
  have hJsub : [join_rectangles g r1 r2].map
      (substList (((cover.filter (fun r => r ≠ r1 ∧ r ≠ r2)).filter
        (fun r3 => (determine_intersection_type g r3
          (join_rectangles g r1 r2)).isNonIncr)).map
        (fun r3 => (r3, residualRect g r3 (join_rectangles g r1 r2))))) =
      [join_rectangles g r1 r2] := by
    rw [List.map_singleton, substList_not_key]
    intro p hp
    rcases List.mem_map.mp hp with ⟨o, ho, hpe⟩
    rw [← hpe]
    simp only
    intro hcontra
    apply hJ_not_cover
    rw [← hcontra]
    exact hdiff_sub o (List.mem_filter.mp ho).1
  rw [hJsub]
  congr 1
  apply List.map_congr_left
  intro y hy
  rcases List.mem_filter.mp hy with ⟨hydiff, _⟩
  rw [substList_mapped]
  by_cases hkny : (determine_intersection_type g y
      (join_rectangles g r1 r2)).isNonIncr = true
  · rw [if_pos ⟨hydiff, hkny⟩, if_pos hkny]
  · rw [if_neg (fun hc => hkny hc.2), if_neg hkny]

lemma double_filter_eq (cover : List Rect) (r1 r2 : Rect) :
    (cover.filter (fun r => r ≠ r1)).filter (fun r => r ≠ r2) =
      cover.filter (fun r => r ≠ r1 ∧ r ≠ r2) := by
  rw [List.filter_filter]
  apply List.filter_congr
  intro x _
  by_cases e1 : x = r1 <;> by_cases e2 : x = r2 <;> simp [e1, e2]

lemma totalCost_int (l : List Rect) :
    (totalCost l : Int) = (l.map (fun r => (r.cost : Int))).sum := by
  unfold totalCost
  induction l with
  | nil => rfl
  | cons x rest ih =>
    simp only [List.map_cons, List.sum_cons, Nat.cast_add, ih]

/-- Classification of a difference-set member of a successfully built
shade: exactly one of void / decreasing / non-increasing, with the
associated span facts. -/
lemma diff_member_kind {g : Grid} {cover : List Rect} {r1 r2 : Rect} {sh : Shade}
    (hN : 0 < g.num_columns) (hinv : CoverInv g cover)
    (hb : build_shade g cover r1 r2 = some sh)
    {x : Rect} (hx : x ∈ cover.filter (fun r => r ≠ r1 ∧ r ≠ r2)) :
    (determine_intersection_type g x (join_rectangles g r1 r2) = SliceKind.void ∧
      x.span g ∩ (join_rectangles g r1 r2).span g = ∅) ∨
    (determine_intersection_type g x (join_rectangles g r1 r2) =
        SliceKind.decreasing ∧
      x.span g ⊆ (join_rectangles g r1 r2).span g) ∨
    ((determine_intersection_type g x (join_rectangles g r1 r2)).isNonIncr = true ∧
      (residualRect g x (join_rectangles g r1 r2)).span g =
        x.span g \ (join_rectangles g r1 r2).span g ∧
      (residualRect g x (join_rectangles g r1 r2)).InGrid g) := by
  obtain ⟨_, _, _, hnoinc, _, _⟩ := build_shade_inv hb
  have hxg : x.InGrid g := hinv.1 x (List.mem_filter.mp hx).1
  cases hk : determine_intersection_type g x (join_rectangles g r1 r2) with
  | void =>
    left
    exact ⟨rfl, (determine_void_iff x (join_rectangles g r1 r2)).mp hk⟩
  | decreasing =>
    right; left
    exact ⟨rfl, ((determine_decreasing_iff x (join_rectangles g r1 r2)).mp hk).2⟩
  | increasing => exact absurd hk (hnoinc x hx)
  | nonIncreasing a b c d =>
    right; right
    obtain ⟨_, _, _, _, _, _, hig, hspan⟩ := determine_nonIncr_inv hN hxg hk
    have hrr : residualRect g x (join_rectangles g r1 r2) = mkRect g a b c d := by
      unfold residualRect; rw [hk]
    rw [hrr]
    exact ⟨rfl, hspan, hig⟩

/-- Applying a retained shade preserves the cover invariant, can only grow
the covered region, and strictly shrinks the cover. -/
lemma apply_shade_coverInv {g : Grid} {cover : List Rect} {r1 r2 : Rect} {sh : Shade}
    (hN : 0 < g.num_columns) (hinv : CoverInv g cover)
    (h1 : r1 ∈ cover) (h2 : r2 ∈ cover) (hne : r1 ≠ r2)
    (hb : build_shade g cover r1 r2 = some sh) :
    CoverInv g (apply_shade cover sh) ∧
    coverUnion g cover ⊆ coverUnion g (apply_shade cover sh) ∧
    (apply_shade cover sh).length < cover.length := by
  rw [apply_shade_structure hN hinv h1 h2 hne hb]
  have hdiff_sub : ∀ x ∈ cover.filter (fun r => r ≠ r1 ∧ r ≠ r2), x ∈ cover := by
    intro x hx; exact (List.mem_filter.mp hx).1
  have hJg : (join_rectangles g r1 r2).InGrid g :=
    join_inGrid (hinv.1 r1 h1) (hinv.1 r2 h2)
  have hsubst_sub : ∀ x ∈ cover.filter (fun r => r ≠ r1 ∧ r ≠ r2),
      ((if (determine_intersection_type g x (join_rectangles g r1 r2)).isNonIncr =
          true then residualRect g x (join_rectangles g r1 r2) else x)).span g ⊆
        x.span g := by
    intro x hx
    rcases diff_member_kind hN hinv hb hx with ⟨hk, _⟩ | ⟨hk, _⟩ | ⟨hk, hspan, _⟩
    · rw [if_neg (by simp [hk, SliceKind.isNonIncr])]
    · rw [if_neg (by simp [hk, SliceKind.isNonIncr])]
    · rw [if_pos hk, hspan]
      exact Finset.sdiff_subset
  have hsubst_grid : ∀ x ∈ cover.filter (fun r => r ≠ r1 ∧ r ≠ r2),
      ((if (determine_intersection_type g x (join_rectangles g r1 r2)).isNonIncr =
          true then residualRect g x (join_rectangles g r1 r2) else x)).InGrid g := by
    intro x hx
    rcases diff_member_kind hN hinv hb hx with ⟨hk, _⟩ | ⟨hk, _⟩ | ⟨hk, _, hig⟩
    · rw [if_neg (by simp [hk, SliceKind.isNonIncr])]
      exact hinv.1 x (hdiff_sub x hx)
    · rw [if_neg (by simp [hk, SliceKind.isNonIncr])]
      exact hinv.1 x (hdiff_sub x hx)
    · rw [if_pos hk]
      exact hig
  have hsubst_joindisj : ∀ x ∈ (cover.filter (fun r => r ≠ r1 ∧ r ≠ r2)).filter
      (fun r3 => !(decide (determine_intersection_type g r3
        (join_rectangles g r1 r2) = SliceKind.decreasing))),
      ((if (determine_intersection_type g x (join_rectangles g r1 r2)).isNonIncr =
          true then residualRect g x (join_rectangles g r1 r2) else x)).span g ∩
        (join_rectangles g r1 r2).span g = ∅ := by
    intro x hx
    rcases List.mem_filter.mp hx with ⟨hxd, hxkd⟩
    rcases diff_member_kind hN hinv hb hxd with ⟨hk, hdisj⟩ | ⟨hk, _⟩ | ⟨hk, hspan, _⟩
    · rw [if_neg (by simp [hk, SliceKind.isNonIncr])]
      exact hdisj
    · rw [hk] at hxkd
      simp at hxkd
    · rw [if_pos hk, hspan]
      exact Finset.sdiff_inter_self _ _
  refine ⟨⟨?_, ?_⟩, ?_, ?_⟩
  · -- all members in the grid
    intro r hr
    rcases List.mem_append.mp hr with h | h
    · rcases List.mem_map.mp h with ⟨x, hx, hxe⟩
      rw [← hxe]
      exact hsubst_grid x (List.mem_filter.mp hx).1
    · rw [List.mem_singleton.mp h]
      exact hJg
  · -- pairwise disjoint
    rw [List.pairwise_append]
    refine ⟨?_, List.pairwise_singleton _ _, ?_⟩
    · rw [List.pairwise_map]
      have hP1 : ((cover.filter (fun r => r ≠ r1 ∧ r ≠ r2)).filter
          (fun r3 => !(decide (determine_intersection_type g r3
            (join_rectangles g r1 r2) = SliceKind.decreasing)))).Pairwise
          (fun a b => a.span g ∩ b.span g = ∅) :=
        hinv.2.sublist ((List.filter_sublist _).trans (List.filter_sublist _))
      apply pairwise_imp_mem ?_ hP1
      intro a ha b hb hab
      have hsa := hsubst_sub a (List.mem_filter.mp ha).1
      have hsb := hsubst_sub b (List.mem_filter.mp hb).1
      have : ((if (determine_intersection_type g a
            (join_rectangles g r1 r2)).isNonIncr = true then
            residualRect g a (join_rectangles g r1 r2) else a)).span g ∩
          ((if (determine_intersection_type g b
            (join_rectangles g r1 r2)).isNonIncr = true then
            residualRect g b (join_rectangles g r1 r2) else b)).span g ⊆
          a.span g ∩ b.span g :=
        Finset.inter_subset_inter hsa hsb
      rw [hab] at this
      exact Finset.subset_empty.mp this
    · intro a ha b hb
      rcases List.mem_map.mp ha with ⟨x, hx, hxe⟩
      rw [List.mem_singleton.mp hb, ← hxe]
      exact hsubst_joindisj x hx
  · -- the covered region can only grow
    intro p hp
    rcases mem_coverUnion.mp hp with ⟨x, hxc, hpx⟩
    apply mem_coverUnion.mpr
    by_cases hx1 : x = r1
    · exact ⟨join_rectangles g r1 r2,
        List.mem_append.mpr (Or.inr (List.mem_singleton_self _)),
        join_span_left g r1 r2 (hx1 ▸ hpx)⟩
    by_cases hx2 : x = r2
    · exact ⟨join_rectangles g r1 r2,
        List.mem_append.mpr (Or.inr (List.mem_singleton_self _)),
        join_span_right g r1 r2 (hx2 ▸ hpx)⟩
    have hxd : x ∈ cover.filter (fun r => r ≠ r1 ∧ r ≠ r2) :=
      List.mem_filter.mpr ⟨hxc, by simp [hx1, hx2]⟩
    rcases diff_member_kind hN hinv hb hxd with ⟨hk, _⟩ | ⟨hk, hsub⟩ | ⟨hk, hspan, _⟩
    · -- void: the member survives unchanged
      have hx2d : x ∈ (cover.filter (fun r => r ≠ r1 ∧ r ≠ r2)).filter
          (fun r3 => !(decide (determine_intersection_type g r3
            (join_rectangles g r1 r2) = SliceKind.decreasing))) :=
        List.mem_filter.mpr ⟨hxd, by simp [hk]⟩
      refine ⟨x, List.mem_append.mpr (Or.inl ?_), hpx⟩
      have : (if (determine_intersection_type g x
          (join_rectangles g r1 r2)).isNonIncr = true then
          residualRect g x (join_rectangles g r1 r2) else x) = x := by
        rw [if_neg (by simp [hk, SliceKind.isNonIncr])]
      rw [← this]
      exact List.mem_map_of_mem _ hx2d
    · -- decreasing: absorbed by the join
      exact ⟨join_rectangles g r1 r2,
        List.mem_append.mpr (Or.inr (List.mem_singleton_self _)), hsub hpx⟩
    · -- non-increasing: split between the join and the residual
      by_cases hpj : p ∈ (join_rectangles g r1 r2).span g
      · exact ⟨join_rectangles g r1 r2,
          List.mem_append.mpr (Or.inr (List.mem_singleton_self _)), hpj⟩
      · have hkd : ¬ determine_intersection_type g x (join_rectangles g r1 r2) =
            SliceKind.decreasing := by
          intro hc
          rw [hc] at hk
          simp [SliceKind.isNonIncr] at hk
        have hx2d : x ∈ (cover.filter (fun r => r ≠ r1 ∧ r ≠ r2)).filter
            (fun r3 => !(decide (determine_intersection_type g r3
              (join_rectangles g r1 r2) = SliceKind.decreasing))) :=
          List.mem_filter.mpr ⟨hxd, by simp [hkd]⟩
        refine ⟨residualRect g x (join_rectangles g r1 r2),
          List.mem_append.mpr (Or.inl ?_), ?_⟩
        · have : (if (determine_intersection_type g x
              (join_rectangles g r1 r2)).isNonIncr = true then
              residualRect g x (join_rectangles g r1 r2) else x) =
              residualRect g x (join_rectangles g r1 r2) := by
            rw [if_pos hk]
          rw [← this]
          exact List.mem_map_of_mem _ hx2d
        · rw [hspan]
          exact Finset.mem_sdiff.mpr ⟨hpx, hpj⟩
  · -- cardinality strictly decreases
    rw [List.length_append, List.length_map, List.length_singleton]
    have hd1 : ((cover.filter (fun r => r ≠ r1)).filter
        (fun r => r ≠ r2)).length < (cover.filter (fun r => r ≠ r1)).length := by
      apply length_filter_lt (x := r2)
      · exact List.mem_filter.mpr ⟨h2, by simpa using Ne.symm hne⟩
      · simp
    have hd2 : (cover.filter (fun r => r ≠ r1)).length < cover.length := by
      apply length_filter_lt (x := r1) h1
      simp
    have hd3 : ((cover.filter (fun r => r ≠ r1 ∧ r ≠ r2)).filter
        (fun r3 => !(decide (determine_intersection_type g r3
          (join_rectangles g r1 r2) = SliceKind.decreasing)))).length ≤
        (cover.filter (fun r => r ≠ r1 ∧ r ≠ r2)).length :=
      List.length_filter_le _ _
    rw [double_filter_eq] at hd1
    omega

/-- Applying a retained shade changes the total cover cost by exactly the
shade's penalty. -/
lemma apply_shade_cost {g : Grid} {cover : List Rect} {r1 r2 : Rect} {sh : Shade}
    (hN : 0 < g.num_columns) (hinv : CoverInv g cover)
    (h1 : r1 ∈ cover) (h2 : r2 ∈ cover) (hne : r1 ≠ r2)
    (hb : build_shade g cover r1 r2 = some sh) :
    (totalCost (apply_shade cover sh) : Int) = totalCost cover + sh.penalty := by
  obtain ⟨hr1, hr2, hj, hnoinc, henv, hpen⟩ := build_shade_inv hb
  have hnd : cover.Nodup := coverInv_nodup hinv
  have hc1 : (totalCost cover : Int) = (r1.cost : Int) + (r2.cost : Int) +
      ((cover.filter (fun r => r ≠ r1 ∧ r ≠ r2)).map
        (fun r => (r.cost : Int))).sum := by
    rw [totalCost_int, sum_remove_one _ hnd h1]
    have hr2f : r2 ∈ cover.filter (fun r => r ≠ r1) :=
      List.mem_filter.mpr ⟨h2, by simpa using Ne.symm hne⟩
    rw [sum_remove_one _ (hnd.filter _) hr2f, double_filter_eq]
    ring
  rw [apply_shade_structure hN hinv h1 h2 hne hb, totalCost_int, List.map_append,
    List.sum_append, List.map_singleton, List.sum_singleton, List.map_map]
  have hchange := sum_filter_change (fun r => (r.cost : Int))
    (fun r3 => (((if (determine_intersection_type g r3
      (join_rectangles g r1 r2)).isNonIncr = true then
      residualRect g r3 (join_rectangles g r1 r2) else r3)).cost : Int))
    (fun r3 => decide (determine_intersection_type g r3
      (join_rectangles g r1 r2) = SliceKind.decreasing))
    (cover.filter (fun r => r ≠ r1 ∧ r ≠ r2))
  have hcomp : ((cover.filter (fun r => r ≠ r1 ∧ r ≠ r2)).filter
        (fun r3 => !(decide (determine_intersection_type g r3
          (join_rectangles g r1 r2) = SliceKind.decreasing)))).map
      ((fun r => (r.cost : Int)) ∘ (fun r3 => if (determine_intersection_type g r3
        (join_rectangles g r1 r2)).isNonIncr = true then
        residualRect g r3 (join_rectangles g r1 r2) else r3)) =
      ((cover.filter (fun r => r ≠ r1 ∧ r ≠ r2)).filter
        (fun r3 => !(decide (determine_intersection_type g r3
          (join_rectangles g r1 r2) = SliceKind.decreasing)))).map
      (fun r3 => (((if (determine_intersection_type g r3
        (join_rectangles g r1 r2)).isNonIncr = true then
        residualRect g r3 (join_rectangles g r1 r2) else r3)).cost : Int)) := by
    apply List.map_congr_left
    intro x _
    rfl
  rw [hcomp, hchange]
  have hvanish : ∀ x ∈ (cover.filter (fun r => r ≠ r1 ∧ r ≠ r2)).filter
      (fun r3 => !(decide (determine_intersection_type g r3
        (join_rectangles g r1 r2) = SliceKind.decreasing))),
      (determine_intersection_type g x (join_rectangles g r1 r2)).isNonIncr =
        false →
      (x.cost : Int) - (((if (determine_intersection_type g x
        (join_rectangles g r1 r2)).isNonIncr = true then
        residualRect g x (join_rectangles g r1 r2) else x)).cost : Int) = 0 := by
    intro x _ hkn
    rw [if_neg (by simp [hkn])]
    ring
  have hthird : (((cover.filter (fun r => r ≠ r1 ∧ r ≠ r2)).filter
        (fun r3 => !(decide (determine_intersection_type g r3
          (join_rectangles g r1 r2) = SliceKind.decreasing)))).map
      (fun x => (x.cost : Int) - (((if (determine_intersection_type g x
        (join_rectangles g r1 r2)).isNonIncr = true then
        residualRect g x (join_rectangles g r1 r2) else x)).cost : Int))).sum =
      (((cover.filter (fun r => r ≠ r1 ∧ r ≠ r2)).filter
        (fun r3 => (determine_intersection_type g r3
          (join_rectangles g r1 r2)).isNonIncr)).map
      (fun x => (x.area : Int) -
        ((residualRect g x (join_rectangles g r1 r2)).area : Int))).sum := by
    rw [sum_map_eq_filter _ (fun r3 => (determine_intersection_type g r3
      (join_rectangles g r1 r2)).isNonIncr) _ hvanish]
    have hff : ((cover.filter (fun r => r ≠ r1 ∧ r ≠ r2)).filter
        (fun r3 => !(decide (determine_intersection_type g r3
          (join_rectangles g r1 r2) = SliceKind.decreasing)))).filter
        (fun r3 => (determine_intersection_type g r3
          (join_rectangles g r1 r2)).isNonIncr) =
        (cover.filter (fun r => r ≠ r1 ∧ r ≠ r2)).filter
        (fun r3 => (determine_intersection_type g r3
          (join_rectangles g r1 r2)).isNonIncr) := by
      rw [List.filter_filter]
      apply List.filter_congr
      intro x _
      cases hk : determine_intersection_type g x (join_rectangles g r1 r2) <;>
        simp [hk, SliceKind.isNonIncr]
    rw [hff]
    apply congrArg
    apply List.map_congr_left
    intro x hx
    rcases List.mem_filter.mp hx with ⟨_, hkn⟩
    rw [if_pos hkn]
    unfold Rect.cost
    push_cast
    ring
  rw [hthird]
  rw [penalty_formula, hr1, hr2, hj, henv, hpen, List.map_map]
  have hpensum : ((cover.filter (fun r => r ≠ r1 ∧ r ≠ r2)).filter
        (fun r3 => (determine_intersection_type g r3
          (join_rectangles g r1 r2)).isNonIncr)).map
      ((fun p => ((p.1.area : Int) - (p.2.area : Int))) ∘
        (fun r3 => (r3, residualRect g r3 (join_rectangles g r1 r2)))) =
      ((cover.filter (fun r => r ≠ r1 ∧ r ≠ r2)).filter
        (fun r3 => (determine_intersection_type g r3
          (join_rectangles g r1 r2)).isNonIncr)).map
      (fun x => (x.area : Int) -
        ((residualRect g x (join_rectangles g r1 r2)).area : Int)) := by
    apply List.map_congr_left
    intro x _
    rfl
  rw [hpensum, hc1]
  ring

/-- Inversion of one accepted local-search iteration: the new cover is a
shade application; the shade was built from a pair of distinct cover
members, no retained shade strictly precedes it, the application test
held, and the invariant, coverage, cardinality and cost conclusions all
follow. -/
lemma local_search_step_inv {g : Grid} {K : Nat} {cover cover2 : List Rect}
    (hN : 0 < g.num_columns) (hinv : CoverInv g cover)
    (hstep : local_search_step g K cover = some cover2) :
    CoverInv g cover2 ∧ cover2.length < cover.length ∧
    coverUnion g cover ⊆ coverUnion g cover2 ∧
    ∃ sh r1 r2, r1 ∈ cover ∧ r2 ∈ cover ∧ r1 ≠ r2 ∧
      build_shade g cover r1 r2 = some sh ∧
      sh ∈ (allPairs cover).filterMap (fun p => build_shade g cover p.1 p.2) ∧
      cover2 = apply_shade cover sh ∧
      (sh.penalty ≤ 0 ∨ K < cover.length) ∧
      (totalCost cover2 : Int) = totalCost cover + sh.penalty ∧
      ∀ s ∈ (allPairs cover).filterMap (fun p => build_shade g cover p.1 p.2),
        shadeLT s sh = false := by
  unfold local_search_step at hstep
  split_ifs at hstep with hlen
  cases hList : (allPairs cover).filterMap (fun p => build_shade g cover p.1 p.2) with
  | nil =>
    rw [hList] at hstep
    exact absurd hstep (by simp)
  | cons s rest =>
    rw [hList] at hstep
    have hstep2 : (if (chooseBest s rest).penalty ≤ 0 ∨ K < cover.length then
        some (apply_shade cover (chooseBest s rest)) else none) = some cover2 :=
      hstep
    split_ifs at hstep2 with happly
    rw [Option.some_inj] at hstep2
    have hmem : chooseBest s rest ∈
        (allPairs cover).filterMap (fun p => build_shade g cover p.1 p.2) := by
      rw [hList]
      exact (chooseBest_min rest s).1
    rcases List.mem_filterMap.mp hmem with ⟨⟨a, b⟩, hab, hbuild⟩
    rcases allPairs_mem (coverInv_nodup hinv) hab with ⟨ha, hb2, hne⟩
    obtain ⟨hinv2, hcov2, hlen2⟩ :=
      apply_shade_coverInv hN hinv ha hb2 hne hbuild
    have hcost := apply_shade_cost hN hinv ha hb2 hne hbuild
    rw [hstep2] at hinv2 hcov2 hlen2 hcost
    refine ⟨hinv2, hlen2, hcov2, chooseBest s rest, a, b, ha, hb2, hne, hbuild,
      (hList ▸ hmem), hstep2.symm, happly, hcost, ?_⟩
    intro x hx
    exact (chooseBest_min rest s).2 x hx

/-- The local-search recursion preserves the cover invariant and never
uncovers a covered cell. -/
lemma local_search_go_inv {g : Grid} {K : Nat} :
    ∀ (fuel : Nat) (cover : List Rect), 0 < g.num_columns → CoverInv g cover →
      CoverInv g (local_search_go g K fuel cover) ∧
      coverUnion g cover ⊆ coverUnion g (local_search_go g K fuel cover) := by
  intro fuel
  induction fuel with
  | zero => intro cover hN hinv; exact ⟨hinv, subset_refl _⟩
  | succ n ih =>
    intro cover hN hinv
    cases hstep : local_search_step g K cover with
    | none =>
      simp only [local_search_go, hstep]
      exact ⟨hinv, subset_refl _⟩
    | some cover2 =>
      obtain ⟨hinv2, _, hsub, _⟩ := local_search_step_inv hN hinv hstep
      simp only [local_search_go, hstep]
      obtain ⟨ha, hb⟩ := ih cover2 hN hinv2
      exact ⟨ha, hsub.trans hb⟩

/-- Fuel equal to the cover size suffices for the local-search recursion:
extra fuel changes nothing, because every applied step strictly decreases
the cover cardinality. -/
lemma local_search_go_stable {g : Grid} {K : Nat} :
    ∀ (n : Nat), ∀ (extra : Nat) (cover : List Rect), 0 < g.num_columns →
      CoverInv g cover → cover.length ≤ n →
      local_search_go g K (n + extra) cover = local_search_go g K n cover := by
  intro n
  induction n using Nat.strong_induction_on with
  | _ n ih =>
    intro extra cover hN hinv hlen
    cases hstep : local_search_step g K cover with
    | none =>
      have hfix : ∀ m, local_search_go g K m cover = cover := by
        intro m
        cases m with
        | zero => rfl
        | succ k => simp only [local_search_go, hstep]
      rw [hfix, hfix]
    | some cover2 =>
      obtain ⟨hinv2, hlt, _, _⟩ := local_search_step_inv hN hinv hstep
      have hn1 : 1 ≤ n := by omega
      obtain ⟨m, hm⟩ : ∃ m, n = m + 1 := ⟨n - 1, by omega⟩
      subst hm
      have he : m + 1 + extra = (m + extra) + 1 := by omega
      rw [he]
      simp only [local_search_go, hstep]
      exact ih m (by omega) extra cover2 hN hinv2 (by omega)

/-! ### Claim theorems -/

/-- C6: the slice classifier returns `Void` exactly when `R3`'s span does
not intersect the join's span, `Decreasing` exactly when it is a subset,
`NonIncreasing` exactly when the leftover `R3 - join` is a full rectangle —
in which case the emitted top-left bounds come from the first set bit and
the bottom-right bounds from the last bit visited by the scan, and the box
over those bounds reproduces the leftover — and `Increasing` otherwise. -/
theorem C6_classifier (g : Grid) (r3 join : Rect) (hN : 0 < g.num_columns)
    (h3 : r3.InGrid g) :
    (determine_intersection_type g r3 join = SliceKind.void ↔
      r3.span g ∩ join.span g = ∅) ∧
    (determine_intersection_type g r3 join = SliceKind.decreasing ↔
      (r3.span g ∩ join.span g ≠ ∅ ∧ r3.span g ⊆ join.span g)) ∧
    ((∃ a b c d, determine_intersection_type g r3 join =
        SliceKind.nonIncreasing a b c d) ↔
      (r3.span g ∩ join.span g ≠ ∅ ∧ ¬ r3.span g ⊆ join.span g ∧
        IsFullBox g.num_columns (r3.span g \ join.span g))) ∧
    (determine_intersection_type g r3 join = SliceKind.increasing ↔
      (r3.span g ∩ join.span g ≠ ∅ ∧ ¬ r3.span g ⊆ join.span g ∧
        ¬ IsFullBox g.num_columns (r3.span g \ join.span g))) ∧
    (∀ a b c d, determine_intersection_type g r3 join =
        SliceKind.nonIncreasing a b c d →
      a = firstBit (r3.span g \ join.span g) / g.num_columns ∧
      b = firstBit (r3.span g \ join.span g) % g.num_columns ∧
      c = lastBit (r3.span g \ join.span g) / g.num_columns ∧
      d = lastBit (r3.span g \ join.span g) % g.num_columns ∧
      boxBits g.num_columns a b c d = r3.span g \ join.span g) := by
  refine ⟨determine_void_iff r3 join, determine_decreasing_iff r3 join,
    determine_nonIncr_exists_iff hN h3, determine_increasing_iff hN h3, ?_⟩
  intro a b c d hk
  obtain ⟨_, _, ha, hb, hc, hd, _, hspan⟩ := determine_nonIncr_inv hN h3 hk
  refine ⟨ha, hb, hc, hd, ?_⟩
  have : (mkRect g a b c d).span g = boxBits g.num_columns a b c d := rfl
  rw [← this, hspan]

/-- C6 witness: on the full 2×2 field, slicing the 2×2 rectangle against
the top-row join leaves the bottom row, a full rectangle. -/
theorem C6_classifier_witness :
    0 < squareGrid.num_columns ∧ Rect.InGrid squareGrid ⟨0, 0, 1, 1, 4⟩ ∧
    ((∃ a b c d, determine_intersection_type squareGrid ⟨0, 0, 1, 1, 4⟩
        ⟨0, 0, 0, 1, 2⟩ = SliceKind.nonIncreasing a b c d) ↔
      (Rect.span squareGrid ⟨0, 0, 1, 1, 4⟩ ∩
          Rect.span squareGrid ⟨0, 0, 0, 1, 2⟩ ≠ ∅ ∧
        ¬ Rect.span squareGrid ⟨0, 0, 1, 1, 4⟩ ⊆
          Rect.span squareGrid ⟨0, 0, 0, 1, 2⟩ ∧
        IsFullBox squareGrid.num_columns
          (Rect.span squareGrid ⟨0, 0, 1, 1, 4⟩ \
            Rect.span squareGrid ⟨0, 0, 0, 1, 2⟩))) :=
  ⟨by decide, by decide,
    (C6_classifier squareGrid ⟨0, 0, 1, 1, 4⟩ ⟨0, 0, 0, 1, 2⟩ (by decide)
      (by decide)).2.2.1⟩

/-- C7: among generated rectangles sharing a `(top_row, top_col,
bottom_col)` chain, the one reaching further down has strictly greater
weight (chain-dominance pruning keeps only strict improvements). -/
theorem C7_chain_monotone (g : Grid) (x y : Rect)
    (hx : x ∈ generate_rectangles g) (hy : y ∈ generate_rectangles g)
    (ht : x.top_left_row = y.top_left_row)
    (hl : x.top_left_column = y.top_left_column)
    (hr : x.bottom_right_column = y.bottom_right_column)
    (hb : x.bottom_right_row < y.bottom_right_row) :
    x.weight < y.weight := by
  obtain ⟨_, _, _, _, _, _, _, _, hxc⟩ := generate_mem hx
  obtain ⟨_, _, _, _, _, _, _, _, hyc⟩ := generate_mem hy
  rw [← ht, ← hl, ← hr] at hyc
  have hpw := @chainGo_pairwise g x.top_left_row x.top_left_column
    x.bottom_right_column
    (List.range' x.top_left_row (g.num_rows - x.top_left_row))
    0 (by
      have := List.pairwise_lt_range' x.top_left_row
        (g.num_rows - x.top_left_row)
      exact this)
  rcases pairwise_two_mem hpw hxc hyc with h | h | h
  · rw [h] at hb; omega
  · exact h.2
  · omega

/-- C7 witness: in the 2×1 column field, the 1×1 and 2×1 rectangles of the
same chain have weights 1 < 2. -/
theorem C7_chain_monotone_witness :
    (⟨0, 0, 0, 0, 1⟩ : Rect) ∈ generate_rectangles columnGrid ∧
    (⟨0, 0, 1, 0, 2⟩ : Rect) ∈ generate_rectangles columnGrid ∧
    (⟨0, 0, 0, 0, 1⟩ : Rect).weight < (⟨0, 0, 1, 0, 2⟩ : Rect).weight :=
  ⟨by decide, by decide,
    C7_chain_monotone columnGrid ⟨0, 0, 0, 0, 1⟩ ⟨0, 0, 1, 0, 2⟩ (by decide)
      (by decide) rfl rfl rfl (by decide)⟩

/-- C8: every strawberry cell contributes its 1×1 rectangle — with bounds
`(i, j, i, j)` — to the generator's candidate list. -/
theorem C8_unit_candidates (g : Grid) (i j : Nat) (hi : i < g.num_rows)
    (hj : j < g.num_columns) (hf : g.field i j ≠ 0) :
    unitRect g i j ∈ generate_rectangles g ∧
    unitRect g i j = ⟨i, j, i, j, g.field i j⟩ := by
  refine ⟨unit_mem_generate hi hj hf, ?_⟩
  unfold unitRect mkRect
  rw [weight_of_unit]

/-- C8 witness: the strawberry at the right end of the 1×5 sample field has
its 1×1 candidate. -/
theorem C8_unit_candidates_witness :
    unitRect sampleGrid 0 4 ∈ generate_rectangles sampleGrid ∧
    unitRect sampleGrid 0 4 = ⟨0, 4, 0, 4, sampleGrid.field 0 4⟩ :=
  C8_unit_candidates sampleGrid 0 4 (by decide) (by decide) (by decide)

lemma ordered_areaZ_pos {r : Rect} (h : r.Ordered) : 0 < r.areaZ := by
  unfold Rect.areaZ
  have h1 : (r.top_left_row : Int) ≤ r.bottom_right_row := by exact_mod_cast h.1
  have h2 : (r.top_left_column : Int) ≤ r.bottom_right_column := by
    exact_mod_cast h.2
  have : (0 : Int) < (r.bottom_right_row : Int) - r.top_left_row + 1 := by omega
  have : (0 : Int) < (r.bottom_right_column : Int) - r.top_left_column + 1 := by
    omega
  positivity

/-- C10: every rectangle the pipeline constructs — generator candidate,
join of two ordered rectangles, convex hull of a nonempty strawberry set,
or `NonIncreasing` residual — has ordered bounds and strictly positive
(signed) area, so the constructor assertion `area_ > 0` never fails. -/
theorem C10_constructed_ordered (g : Grid) (hN : 0 < g.num_columns) :
    (∀ x ∈ generate_rectangles g, x.Ordered ∧ 0 < x.areaZ) ∧
    (∀ r1 r2 : Rect, r1.Ordered → r2.Ordered →
      (join_rectangles g r1 r2).Ordered ∧ 0 < (join_rectangles g r1 r2).areaZ) ∧
    ((strawberries g).Nonempty →
      ∀ x ∈ compute_convex_hull g, x.Ordered ∧ 0 < x.areaZ) ∧
    (∀ (r3 join : Rect) (a b c d : Nat), r3.InGrid g →
      determine_intersection_type g r3 join = SliceKind.nonIncreasing a b c d →
      (mkRect g a b c d).Ordered ∧ 0 < (mkRect g a b c d).areaZ) := by
  refine ⟨?_, ?_, ?_, ?_⟩
  · intro x hx
    have ho : x.Ordered := (generate_inGrid hx).1
    exact ⟨ho, ordered_areaZ_pos ho⟩
  · intro r1 r2 h1 h2
    have ho : (join_rectangles g r1 r2).Ordered := by
      unfold join_rectangles mkRect
      constructor
      · exact le_trans (Nat.min_le_left _ _) (le_trans h1.1 (Nat.le_max_left _ _))
      · exact le_trans (Nat.min_le_left _ _) (le_trans h1.2 (Nat.le_max_left _ _))
    exact ⟨ho, ordered_areaZ_pos ho⟩
  · intro hne x hx
    have hbne : (berryBits g).Nonempty := hne.image _
    have hrowsne : ((berryBits g).image
        (fun p => (p - p % g.num_columns) / g.num_columns)).Nonempty :=
      hbne.image _
    have hcolsne : ((berryBits g).image (fun p => p % g.num_columns)).Nonempty :=
      hbne.image _
    unfold compute_convex_hull at hx
    rw [List.mem_singleton.mp hx]
    have ho : (mkRect g
        (((berryBits g).image
          (fun p => (p - p % g.num_columns) / g.num_columns)).min.untop' 0)
        (((berryBits g).image (fun p => p % g.num_columns)).min.untop' 0)
        (((berryBits g).image
          (fun p => (p - p % g.num_columns) / g.num_columns)).max.unbot' 0)
        (((berryBits g).image (fun p => p % g.num_columns)).max.unbot' 0)).Ordered := by
      constructor
      · rw [min_untop_eq_min' hrowsne, max_unbot_eq_max' hrowsne]
        exact Finset.min'_le _ _ (Finset.max'_mem _ hrowsne)
      · rw [min_untop_eq_min' hcolsne, max_unbot_eq_max' hcolsne]
        exact Finset.min'_le _ _ (Finset.max'_mem _ hcolsne)
    exact ⟨ho, ordered_areaZ_pos ho⟩
  · intro r3 join a b c d h3 hk
    obtain ⟨_, _, _, _, _, _, hig, _⟩ := determine_nonIncr_inv hN h3 hk
    exact ⟨hig.1, ordered_areaZ_pos hig.1⟩

/-- C10 witness: instantiation on the 1×5 sample field. -/
theorem C10_constructed_ordered_witness :
    0 < sampleGrid.num_columns ∧
    (∀ x ∈ generate_rectangles sampleGrid, x.Ordered ∧ 0 < x.areaZ) :=
  ⟨by decide, (C10_constructed_ordered sampleGrid (by decide)).1⟩

lemma greedy_match_spec {g : Grid} {cands : List Rect}
    (hperm : List.Perm cands (generate_rectangles g)) :
    GreedyInv g (greedy_match g cands) ∧ (greedy_match g cands).unmatched = ∅ :=
  greedyGo_inv ((berryBits g).card) (initGreedyState g cands)
    (init_greedy_inv hperm) (le_refl _)

/-- C1: after the greedy-match phase, and across every accepted
local-search iteration, any two distinct cover members have disjoint spans
(`r.span AND s.span == 0`). -/
theorem C1_pairwise_disjoint (g : Grid) (K : Nat) (cands : List Rect)
    (hN : 0 < g.num_columns) (hperm : List.Perm cands (generate_rectangles g)) :
    (CoverInv g (greedy_match g cands).result ∧
      ∀ x ∈ (greedy_match g cands).result, ∀ y ∈ (greedy_match g cands).result,
        x ≠ y → x.span g ∩ y.span g = ∅) ∧
    (∀ cover cover2, CoverInv g cover →
      local_search_step g K cover = some cover2 →
      CoverInv g cover2 ∧
      ∀ x ∈ cover2, ∀ y ∈ cover2, x ≠ y → x.span g ∩ y.span g = ∅) := by
  have hcov : CoverInv g (greedy_match g cands).result :=
    (greedy_match_spec hperm).1.2.2.1
  constructor
  · exact ⟨hcov, fun x hx y hy hxy => pairwise_disj_mem hcov hx hy hxy⟩
  · intro cover cover2 hinv hstep
    obtain ⟨hinv2, _, _, _⟩ := local_search_step_inv hN hinv hstep
    exact ⟨hinv2, fun x hx y hy hxy => pairwise_disj_mem hinv2 hx hy hxy⟩

/-- C1 witness: the sample field's greedy cover is pairwise disjoint. -/
theorem C1_pairwise_disjoint_witness :
    0 < sampleGrid.num_columns ∧
    (CoverInv sampleGrid
        (greedy_match sampleGrid (generate_rectangles sampleGrid)).result ∧
      ∀ x ∈ (greedy_match sampleGrid (generate_rectangles sampleGrid)).result,
        ∀ y ∈ (greedy_match sampleGrid (generate_rectangles sampleGrid)).result,
          x ≠ y → x.span sampleGrid ∩ y.span sampleGrid = ∅) :=
  ⟨by decide, (C1_pairwise_disjoint sampleGrid 2 (generate_rectangles sampleGrid)
    (by decide) (List.Perm.refl _)).1⟩

/-- C2: the greedy loop terminates — fuel equal to the number of
strawberries reaches the empty `unmatched` state and further fuel is a
no-op — and after phase 2 as well as after the local search every
strawberry coordinate lies in some cover rectangle. -/
theorem C2_coverage (g : Grid) (K : Nat) (cands : List Rect)
    (hN : 0 < g.num_columns) (hperm : List.Perm cands (generate_rectangles g)) :
    (∀ k, greedyGo g ((berryBits g).card + k) (initGreedyState g cands) =
      greedy_match g cands) ∧
    (greedy_match g cands).unmatched = ∅ ∧
    (∀ i j, (i, j) ∈ strawberries g →
      ∃ r ∈ (greedy_match g cands).result, g.num_columns * i + j ∈ r.span g) ∧
    (∀ i j, (i, j) ∈ strawberries g →
      ∃ r ∈ local_search g K (greedy_match g cands).result,
        g.num_columns * i + j ∈ r.span g) := by
  obtain ⟨hginv, hempty⟩ := greedy_match_spec (g := g) hperm
  have hcover : ∀ i j, (i, j) ∈ strawberries g →
      ∃ r ∈ (greedy_match g cands).result, g.num_columns * i + j ∈ r.span g := by
    intro i j hij
    have hpb : g.num_columns * i + j ∈ berryBits g :=
      Finset.mem_image.mpr ⟨(i, j), hij, rfl⟩
    have hsub : berryBits g ⊆ (greedy_match g cands).covering := by
      apply Finset.sdiff_eq_empty_iff_subset.mp
      rw [← hginv.2.1]
      exact hempty
    have := hsub hpb
    rw [hginv.1] at this
    exact mem_coverUnion.mp this
  refine ⟨?_, hempty, hcover, ?_⟩
  · intro k
    have hadd := greedyGo_add (g := g) ((berryBits g).card) k (initGreedyState g cands)
    rw [hadd]
    exact greedyGo_of_empty hempty k
  · intro i j hij
    rcases hcover i j hij with ⟨r, hr, hpr⟩
    obtain ⟨_, hmono⟩ := local_search_go_inv (g := g) (K := K)
      ((greedy_match g cands).result.length) (greedy_match g cands).result hN
      hginv.2.2.1
    have hp : g.num_columns * i + j ∈
        coverUnion g (greedy_match g cands).result :=
      mem_coverUnion.mpr ⟨r, hr, hpr⟩
    exact mem_coverUnion.mp (hmono hp)

/-- C2 witness: on the sample field both strawberries are covered. -/
theorem C2_coverage_witness :
    0 < sampleGrid.num_columns ∧
    (greedy_match sampleGrid (generate_rectangles sampleGrid)).unmatched = ∅ ∧
    (∀ i j, (i, j) ∈ strawberries sampleGrid →
      ∃ r ∈ (greedy_match sampleGrid (generate_rectangles sampleGrid)).result,
        sampleGrid.num_columns * i + j ∈ r.span sampleGrid) :=
  ⟨by decide,
    (C2_coverage sampleGrid 2 (generate_rectangles sampleGrid) (by decide)
      (List.Perm.refl _)).2.1,
    (C2_coverage sampleGrid 2 (generate_rectangles sampleGrid) (by decide)
      (List.Perm.refl _)).2.2.1⟩

/-- C3: every accepted local-search step strictly decreases the cover
cardinality, and when the applied shade's penalty is negative it also
strictly decreases the total cost; consequently fuel equal to the cover
size suffices for the recursion (extra fuel changes nothing), so the
recursion halts on every invariant-satisfying cover. -/
theorem C3_termination (g : Grid) (K : Nat) (hN : 0 < g.num_columns) :
    (∀ cover cover2, CoverInv g cover →
      local_search_step g K cover = some cover2 →
      cover2.length < cover.length ∧
      ∃ sh, (∃ r1 r2, r1 ∈ cover ∧ r2 ∈ cover ∧ r1 ≠ r2 ∧
          build_shade g cover r1 r2 = some sh) ∧
        cover2 = apply_shade cover sh ∧
        (sh.penalty < 0 → (totalCost cover2 : Int) < totalCost cover)) ∧
    (∀ (cover : List Rect) (extra : Nat), CoverInv g cover →
      local_search_go g K (cover.length + extra) cover =
        local_search g K cover) := by
  constructor
  · intro cover cover2 hinv hstep
    obtain ⟨_, hlen, _, sh, r1, r2, h1, h2, hne, hb, _, happ, _, hcost, _⟩ :=
      local_search_step_inv hN hinv hstep
    refine ⟨hlen, sh, ⟨r1, r2, h1, h2, hne, hb⟩, happ, ?_⟩
    intro hneg
    omega
  · intro cover extra hinv
    exact local_search_go_stable cover.length extra cover hN hinv (le_refl _)

/-- C3 witness: on the sample field's two-member greedy cover the step
applies and shrinks the cover. -/
theorem C3_termination_witness :
    0 < sampleGrid.num_columns ∧
    CoverInv sampleGrid [⟨0, 0, 0, 0, 1⟩, ⟨0, 1, 0, 4, 1⟩] ∧
    local_search_step sampleGrid 2 [⟨0, 0, 0, 0, 1⟩, ⟨0, 1, 0, 4, 1⟩] =
      some [⟨0, 0, 0, 4, 2⟩] ∧
    ([⟨0, 0, 0, 4, 2⟩] : List Rect).length <
      ([⟨0, 0, 0, 0, 1⟩, ⟨0, 1, 0, 4, 1⟩] : List Rect).length :=
  ⟨by decide, by unfold CoverInv; decide, by decide,
    ((C3_termination sampleGrid 2 (by decide)).1
      [⟨0, 0, 0, 0, 1⟩, ⟨0, 1, 0, 4, 1⟩] [⟨0, 0, 0, 4, 2⟩]
      (by unfold CoverInv; decide) (by decide)).1⟩

/-- C4: `Shade::penalty` is the join cost minus the pair costs, the
envelope costs and the penumbra area differences; and applying a retained
shade with negative penalty strictly lowers the total cover cost. -/
theorem C4_penalty (g : Grid) (cover : List Rect) (r1 r2 : Rect) (sh : Shade)
    (hN : 0 < g.num_columns) (hinv : CoverInv g cover)
    (h1 : r1 ∈ cover) (h2 : r2 ∈ cover) (hne : r1 ≠ r2)
    (hb : build_shade g cover r1 r2 = some sh) :
    sh.penalty = (sh.join.cost : Int) -
      ((sh.rec1.cost : Int) + (sh.rec2.cost : Int) +
        (sh.envelope.map (fun r => (r.cost : Int))).sum +
        (sh.penumbra.map (fun p => (p.1.area : Int) - (p.2.area : Int))).sum) ∧
    (sh.penalty < 0 → (totalCost (apply_shade cover sh) : Int) < totalCost cover) := by
  refine ⟨penalty_formula sh, ?_⟩
  intro hneg
  have hc := apply_shade_cost hN hinv h1 h2 hne hb
  omega

/-- C4 witness: the sample field's join shade has penalty −10 and its
application lowers the cost from 25 to 15. -/
theorem C4_penalty_witness :
    build_shade sampleGrid [⟨0, 0, 0, 0, 1⟩, ⟨0, 1, 0, 4, 1⟩]
        ⟨0, 0, 0, 0, 1⟩ ⟨0, 1, 0, 4, 1⟩ =
      some ⟨⟨0, 0, 0, 0, 1⟩, ⟨0, 1, 0, 4, 1⟩, ⟨0, 0, 0, 4, 2⟩, [], []⟩ ∧
    ((Shade.penalty ⟨⟨0, 0, 0, 0, 1⟩, ⟨0, 1, 0, 4, 1⟩, ⟨0, 0, 0, 4, 2⟩, [], []⟩ < 0 →
      (totalCost (apply_shade [⟨0, 0, 0, 0, 1⟩, ⟨0, 1, 0, 4, 1⟩]
        ⟨⟨0, 0, 0, 0, 1⟩, ⟨0, 1, 0, 4, 1⟩, ⟨0, 0, 0, 4, 2⟩, [], []⟩) : Int) <
        totalCost [⟨0, 0, 0, 0, 1⟩, ⟨0, 1, 0, 4, 1⟩])) :=
  ⟨by decide,
    (C4_penalty sampleGrid [⟨0, 0, 0, 0, 1⟩, ⟨0, 1, 0, 4, 1⟩]
      ⟨0, 0, 0, 0, 1⟩ ⟨0, 1, 0, 4, 1⟩
      ⟨⟨0, 0, 0, 0, 1⟩, ⟨0, 1, 0, 4, 1⟩, ⟨0, 0, 0, 4, 2⟩, [], []⟩
      (by decide) (by unfold CoverInv; decide) (by decide) (by decide)
      (by decide) (by decide)).2⟩

/-- C5: every retained shade's slice set has no `Increasing` member; a step
is applied exactly through a retained shade that no retained shade strictly
precedes (penalty order, envelope-size tie-break) and that passes the
`penalty ≤ 0 or cover too large` test, and whenever some minimal retained
shade passes the test on a two-or-more cover the step does apply. -/
theorem C5_applied_shade (g : Grid) (K : Nat) (cover : List Rect)
    (hN : 0 < g.num_columns) (hinv : CoverInv g cover) :
    (∀ sh ∈ (allPairs cover).filterMap (fun p => build_shade g cover p.1 p.2),
      ∀ r3 ∈ cover.filter (fun r => r ≠ sh.rec1 ∧ r ≠ sh.rec2),
        determine_intersection_type g r3 sh.join ≠ SliceKind.increasing) ∧
    (∀ cover2, local_search_step g K cover = some cover2 →
      ∃ sh, sh ∈ (allPairs cover).filterMap
          (fun p => build_shade g cover p.1 p.2) ∧
        cover2 = apply_shade cover sh ∧
        (∀ s ∈ (allPairs cover).filterMap (fun p => build_shade g cover p.1 p.2),
          shadeLT s sh = false) ∧
        (sh.penalty ≤ 0 ∨ K < cover.length)) ∧
    (2 ≤ cover.length →
      ∀ sh ∈ (allPairs cover).filterMap (fun p => build_shade g cover p.1 p.2),
        (∀ s ∈ (allPairs cover).filterMap (fun p => build_shade g cover p.1 p.2),
          shadeLT s sh = false) →
        (sh.penalty ≤ 0 ∨ K < cover.length) →
        local_search_step g K cover ≠ none) := by
  refine ⟨?_, ?_, ?_⟩
  · intro sh hsh r3 hr3
    rcases List.mem_filterMap.mp hsh with ⟨⟨a, b⟩, _, hbuild⟩
    obtain ⟨hr1, hr2, hj, hnoinc, _, _⟩ := build_shade_inv hbuild
    rw [hr1, hr2] at hr3
    rw [hj]
    exact hnoinc r3 hr3
  · intro cover2 hstep
    obtain ⟨_, _, _, sh, r1, r2, _, _, _, _, hmem, happ, hcond, _, hmin⟩ :=
      local_search_step_inv hN hinv hstep
    exact ⟨sh, hmem, happ, hmin, hcond⟩
  · intro hlen sh hsh hmin hcond hnone
    unfold local_search_step at hnone
    rw [if_neg (by omega)] at hnone
    cases hList : (allPairs cover).filterMap
        (fun p => build_shade g cover p.1 p.2) with
    | nil => rw [hList] at hsh; exact absurd hsh (by simp)
    | cons s rest =>
      rw [hList] at hnone
      have hcbest : (chooseBest s rest).penalty ≤ 0 ∨ K < cover.length := by
        rcases hcond with hp | hk
        · left
          have hshmem : sh ∈ s :: rest := hList ▸ hsh
          have hnlt : shadeLT sh (chooseBest s rest) = false :=
            (chooseBest_min rest s).2 sh hshmem
          rw [← Bool.not_eq_true, shadeLT_iff] at hnlt
          omega
        · right; exact hk
      have hstep2 : (if (chooseBest s rest).penalty ≤ 0 ∨ K < cover.length then
          some (apply_shade cover (chooseBest s rest)) else none) = none := hnone
      rw [if_pos hcbest] at hstep2
      exact absurd hstep2 (by simp)

/-- C5 witness: on the sample field's greedy cover the retained shade has
no increasing slice and the step applies. -/
theorem C5_applied_shade_witness :
    0 < sampleGrid.num_columns ∧
    (∀ cover2, local_search_step sampleGrid 2
        [⟨0, 0, 0, 0, 1⟩, ⟨0, 1, 0, 4, 1⟩] = some cover2 →
      ∃ sh, sh ∈ (allPairs [⟨0, 0, 0, 0, 1⟩, ⟨0, 1, 0, 4, 1⟩]).filterMap
          (fun p => build_shade sampleGrid
            [⟨0, 0, 0, 0, 1⟩, ⟨0, 1, 0, 4, 1⟩] p.1 p.2) ∧
        cover2 = apply_shade [⟨0, 0, 0, 0, 1⟩, ⟨0, 1, 0, 4, 1⟩] sh ∧
        (∀ s ∈ (allPairs [⟨0, 0, 0, 0, 1⟩, ⟨0, 1, 0, 4, 1⟩]).filterMap
            (fun p => build_shade sampleGrid
              [⟨0, 0, 0, 0, 1⟩, ⟨0, 1, 0, 4, 1⟩] p.1 p.2),
          shadeLT s sh = false) ∧
        (sh.penalty ≤ 0 ∨ 2 <
          ([⟨0, 0, 0, 0, 1⟩, ⟨0, 1, 0, 4, 1⟩] : List Rect).length)) :=
  ⟨by decide, (C5_applied_shade sampleGrid 2 [⟨0, 0, 0, 0, 1⟩, ⟨0, 1, 0, 4, 1⟩]
    (by decide) (by unfold CoverInv; decide)).2.1⟩

/-- C9: with a cardinality bound of at most 1 and at least one strawberry
the pipeline is bypassed and the sole cover rectangle is bounded by the
minimum and maximum strawberry rows and columns. -/
theorem C9_hull_shortcut (g : Grid) (K : Nat) (cands : List Rect)
    (hK : K ≤ 1) (hne : (strawberries g).Nonempty) (hN : 0 < g.num_columns) :
    optimizer_run g K cands = compute_convex_hull g ∧
    optimizer_run g K cands = [mkRect g
      (((strawberries g).image Prod.fst).min' (hne.image _))
      (((strawberries g).image Prod.snd).min' (hne.image _))
      (((strawberries g).image Prod.fst).max' (hne.image _))
      (((strawberries g).image Prod.snd).max' (hne.image _))] := by
  have hskip : optimizer_run g K cands = compute_convex_hull g := by
    unfold optimizer_run
    rw [if_neg (by omega)]
  refine ⟨hskip, ?_⟩
  rw [hskip]
  have hrow : (berryBits g).image
      (fun p => (p - p % g.num_columns) / g.num_columns) =
      (strawberries g).image Prod.fst := by
    unfold berryBits
    rw [Finset.image_image]
    apply Finset.image_congr
    intro q hq
    have hj : q.2 < g.num_columns := by
      unfold strawberries at hq
      rcases Finset.mem_filter.mp hq with ⟨hmem, _⟩
      exact Finset.mem_range.mp (Finset.mem_product.mp hmem).2
    simp only [Function.comp_apply]
    rw [sub_mod_div, Nat.mul_add_div hN, Nat.div_eq_of_lt hj, Nat.add_zero]
  have hcol : (berryBits g).image (fun p => p % g.num_columns) =
      (strawberries g).image Prod.snd := by
    unfold berryBits
    rw [Finset.image_image]
    apply Finset.image_congr
    intro q hq
    have hj : q.2 < g.num_columns := by
      unfold strawberries at hq
      rcases Finset.mem_filter.mp hq with ⟨hmem, _⟩
      exact Finset.mem_range.mp (Finset.mem_product.mp hmem).2
    simp only [Function.comp_apply]
    rw [Nat.mul_add_mod, Nat.mod_eq_of_lt hj]
  simp only [compute_convex_hull]
  rw [hrow, hcol, min_untop_eq_min' (hne.image _), max_unbot_eq_max' (hne.image _),
    min_untop_eq_min' (hne.image _), max_unbot_eq_max' (hne.image _)]

/-- C9 witness: on the 1×5 sample field with K = 1 the cover is the single
bounding rectangle over columns 0–4. -/
theorem C9_hull_shortcut_witness :
    (1 : Nat) ≤ 1 ∧ (strawberries sampleGrid).Nonempty ∧
    optimizer_run sampleGrid 1 [] = [⟨0, 0, 0, 4, 2⟩] := by
  refine ⟨le_refl 1, by decide, ?_⟩
  have h := (C9_hull_shortcut sampleGrid 1 [] (le_refl 1) (by decide)
    (by decide)).2
  rw [h]
  decide

end StrawberryFields
